import Mathlib

/-!
Verification of the habit-tracker analytics core (Vite + React habit tracker).

The completion log of the application is a JavaScript object mapping ISO date
keys ("YYYY-MM-DD") to objects whose keys are habit ids (values `true`).  We
embed it as an association list of date keys to lists of habit ids (the key
list of the inner object).  JavaScript objects have unique keys; where a proof
needs that structural fact it appears as an explicit hypothesis.
-/

abbrev HabitId := String

abbrev DateKey := String

/-- One day of the completion log: the keys of the JS per-day object,
in insertion order. -/
abbrev Day := List HabitId

/-- The completion log: the entries of the JS `completions` object,
in insertion order. -/
abbrev Log := List (DateKey × Day)

/-- A habit record (`{ id, name, targetPerWeek, active, createdAtISO, notes }`). -/
structure Habit where
  id : HabitId
  name : String
  targetPerWeek : Int
  active : Bool
  createdAtISO : String
  notes : String

/-- JS property read `completions[dateISO]`: the first entry with the key
(a JS object has at most one entry per key). -/
def lookupDay : Log → DateKey → Option Day
  | [], _ => none
  | p :: rest, d => if p.1 = d then some p.2 else lookupDay rest d

/-- Whether a date key is present in the log. -/
def hasDate (L : Log) (d : DateKey) : Bool := L.any (fun p => p.1 = d)

/-- JS property write `{ ...completions, [dateISO]: day }`: the entry for the
key is replaced in place if present, otherwise appended at the end. -/
def setKey : Log → DateKey → Day → Log
  | [], d, v => [(d, v)]
  | p :: rest, d, v => if p.1 = d then (d, v) :: rest else p :: setKey rest d v

/-- JS `delete copy[dateISO]` on a fresh copy of the log. -/
def removeKey (L : Log) (d : DateKey) : Log := L.filter (fun p => decide (p.1 ≠ d))

/-- `isCompleted(completions, dateISO, habitId)` (source line 119):
`!!(completions?.[dateISO]?.[habitId])`. -/
def isCompleted (L : Log) (d : DateKey) (h : HabitId) : Bool :=
  match lookupDay L d with
  | none => false
  | some day => day.contains h

/-- The day update inside `toggleCompletion`: delete the habit key if present,
otherwise add it (JS adds a fresh key at the end of the object). -/
def dayToggle (day : Day) (h : HabitId) : Day :=
  if day.contains h then day.erase h else day ++ [h]

/-- `toggleCompletion(completions, dateISO, habitId)` (source lines 121-132). -/
def toggleCompletion (L : Log) (d : DateKey) (h : HabitId) : Log :=
  let day := dayToggle ((lookupDay L d).getD []) h
  let next := setKey L d day
  if day.isEmpty then removeKey next d else next

/-- `getActiveHabits(habits)` (source line 118). -/
def getActiveHabits (habits : List Habit) : List Habit := habits.filter (fun h => h.active)

/-- `deleteHabit(habitId)` (source lines 376-387): drop the habit from the
habits list and cascade on the log: erase the id from every day's set, keeping
only the days whose set stays non-empty. -/
def deleteHabit (habits : List Habit) (L : Log) (habitId : HabitId) : List Habit × Log :=
  let nextHabits := habits.filter (fun h => decide (h.id ≠ habitId))
  let nextCompletions :=
    (L.map (fun p => (p.1, p.2.erase habitId))).filter (fun p => decide (¬ p.2.isEmpty))
  (nextHabits, nextCompletions)

/-- The non-empty-day invariant: every date key present in the log maps to a
non-empty completion set. -/
def NonEmptyDays (L : Log) : Prop := ∀ p ∈ L, p.2 ≠ []

/-- Structural well-formedness inherited from JS objects: within a day the
habit ids are pairwise distinct (they are the keys of an object). -/
def DaysNodup (L : Log) : Prop := ∀ p ∈ L, p.2.Nodup

/-- Equality of two logs as maps from date keys to sets of habit ids:
same date keys present, and the same completion facts everywhere. -/
def logEquiv (L1 L2 : Log) : Prop :=
  (∀ d, hasDate L1 d = hasDate L2 d) ∧ ∀ d h, isCompleted L1 d h = isCompleted L2 d h

instance : DecidablePred NonEmptyDays := fun L =>
  decidable_of_iff (∀ p ∈ L, p.2 ≠ []) Iff.rfl

instance : DecidablePred DaysNodup := fun L =>
  decidable_of_iff (∀ p ∈ L, p.2.Nodup) Iff.rfl

-- ### Basic lemmas about the log primitives

theorem lookupDay_isSome_iff_hasDate (L : Log) (d : DateKey) :
    (lookupDay L d).isSome = hasDate L d := by
  induction L with
  | nil => rfl
  | cons p rest ih =>
    by_cases h : p.1 = d <;> simp [lookupDay, hasDate, h] at ih ⊢ <;> simpa [hasDate] using ih

theorem lookupDay_setKey (L : Log) (d : DateKey) (v : Day) (d' : DateKey) :
    lookupDay (setKey L d v) d' = if d' = d then some v else lookupDay L d' := by
  induction L with
  | nil =>
    by_cases h : d' = d
    · simp [setKey, lookupDay, h]
    · simp only [setKey, lookupDay, if_neg h]
      rw [if_neg (fun he : d = d' => h he.symm)]
  | cons p rest ih =>
    by_cases hc : p.1 = d
    · by_cases h' : d' = d
      · subst h'; simp [setKey, lookupDay, hc]
      · have hd' : d ≠ d' := fun he => h' he.symm
        have hp' : p.1 ≠ d' := by rw [hc]; exact hd'
        simp [setKey, lookupDay, hc, h', hd', hp']
    · by_cases h' : d' = d
      · subst h'
        simp [setKey, lookupDay, hc, ih, fun he : p.1 = d' => hc he]
      · by_cases hq : p.1 = d'
        · simp [setKey, lookupDay, hc, hq, h']
        · simp [setKey, lookupDay, hc, hq, ih, h']

theorem hasDate_setKey (L : Log) (d : DateKey) (v : Day) (d' : DateKey) :
    hasDate (setKey L d v) d' = if d' = d then true else hasDate L d' := by
  have h1 := lookupDay_isSome_iff_hasDate (setKey L d v) d'
  have h2 := lookupDay_isSome_iff_hasDate L d'
  rw [lookupDay_setKey] at h1
  by_cases h' : d' = d <;> simp [h'] at h1 ⊢ <;> simp [← h1, ← h2]

theorem lookupDay_removeKey (L : Log) (d : DateKey) (d' : DateKey) :
    lookupDay (removeKey L d) d' = if d' = d then none else lookupDay L d' := by
  induction L with
  | nil => simp [removeKey, lookupDay]
  | cons p rest ih =>
    by_cases hc : p.1 = d
    · by_cases h' : d' = d
      · subst h'; simpa [removeKey, List.filter, lookupDay, hc] using ih
      · have hp' : p.1 ≠ d' := by rw [hc]; exact fun he => h' he.symm
        simp only [removeKey, List.filter, hc] at ih ⊢
        simp [lookupDay, hp', h'] at ih ⊢
        simpa [h'] using ih
    · by_cases hq : p.1 = d'
      · by_cases h' : d' = d
        · exact absurd (h' ▸ hq) hc
        · simp [removeKey, List.filter, hc, lookupDay, hq, h']
      · simp only [removeKey, List.filter, hc] at ih ⊢
        simp [lookupDay, hc, hq] at ih ⊢
        exact ih

theorem hasDate_removeKey (L : Log) (d : DateKey) (d' : DateKey) :
    hasDate (removeKey L d) d' = if d' = d then false else hasDate L d' := by
  have h1 := lookupDay_isSome_iff_hasDate (removeKey L d) d'
  have h2 := lookupDay_isSome_iff_hasDate L d'
  rw [lookupDay_removeKey] at h1
  by_cases h' : d' = d <;> simp [h'] at h1 ⊢ <;> simp [← h1, ← h2]

theorem lookupDay_mem {L : Log} {d : DateKey} {v : Day} (h : lookupDay L d = some v) :
    (d, v) ∈ L := by
  induction L with
  | nil => simp [lookupDay] at h
  | cons p rest ih =>
    by_cases hc : p.1 = d
    · simp [lookupDay, hc] at h
      have hp : p = (d, v) := by cases p; simp_all
      rw [← hp]
      exact List.mem_cons_self _ _
    · simp [lookupDay, hc] at h
      exact List.mem_cons_of_mem _ (ih h)

theorem hasDate_false_iff (L : Log) (d : DateKey) :
    hasDate L d = false ↔ lookupDay L d = none := by
  have := lookupDay_isSome_iff_hasDate L d
  cases hs : lookupDay L d <;> rw [hs] at this <;> simp at this <;> simp [← this]

theorem mem_setKey {L : Log} {d : DateKey} {v : Day} {p : DateKey × Day}
    (h : p ∈ setKey L d v) : p ∈ L ∨ p = (d, v) := by
  induction L with
  | nil => simp [setKey] at h; right; exact h
  | cons q rest ih =>
    by_cases hc : q.1 = d
    · simp [setKey, hc] at h
      rcases h with h | h
      · right; exact h
      · left; exact List.mem_cons_of_mem _ h
    · simp [setKey, hc] at h
      rcases h with h | h
      · left; simp [h]
      · rcases ih h with h' | h'
        · left; exact List.mem_cons_of_mem _ h'
        · right; exact h'

theorem erase_eq_nil_of_mem {day : Day} {h : HabitId}
    (hm : day.contains h = true) (he : day.erase h = []) : day = [h] := by
  cases day with
  | nil => simp at hm
  | cons c rest =>
    rw [List.erase_cons] at he
    by_cases hc : c = h
    · subst hc; simp at he; simp [he]
    · simp [hc] at he

-- ### Claim C1: the non-empty-day invariant is preserved

theorem nonEmptyDays_toggle_aux (L : Log) (d : DateKey) (h : HabitId)
    (hL : NonEmptyDays L) : NonEmptyDays (toggleCompletion L d h) := by
  unfold toggleCompletion
  set day := dayToggle ((lookupDay L d).getD []) h with hday
  by_cases hE : day.isEmpty
  · simp only [hE, if_true]
    intro p hp
    unfold removeKey at hp
    have hp' := List.mem_filter.mp hp
    rcases mem_setKey hp'.1 with hmem | hmem
    · exact hL p hmem
    · exfalso
      have : p.1 ≠ d := by simpa using hp'.2
      rw [hmem] at this
      exact this rfl
  · simp only [hE, if_false]
    intro p hp
    rcases mem_setKey hp with hmem | hmem
    · exact hL p hmem
    · rw [hmem]
      simpa [List.isEmpty_iff] using hE

theorem nonEmptyDays_deleteHabit_aux (habits : List Habit) (L : Log) (hid : HabitId) :
    NonEmptyDays (deleteHabit habits L hid).2 := by
  intro p hp
  unfold deleteHabit at hp
  simp only at hp
  have := (List.mem_filter.mp hp).2
  simpa [List.isEmpty_iff] using this

/-- Claim C1: starting from a log in which every present date key maps to a
non-empty set of habit ids, both `toggleCompletion` (for any date key and
habit id) and the deletion cascade of `deleteHabit` (for any habit id) yield
a log in which every present date key still maps to a non-empty set. -/
theorem claim_C1_nonEmptyDays_preserved (habits : List Habit) (L : Log)
    (d : DateKey) (h hid : HabitId) (hL : NonEmptyDays L) :
    NonEmptyDays (toggleCompletion L d h) ∧ NonEmptyDays (deleteHabit habits L hid).2 :=
  ⟨nonEmptyDays_toggle_aux L d h hL, nonEmptyDays_deleteHabit_aux habits L hid⟩

/-- Witness for C1 at a concrete log. -/
theorem claim_C1_witness :
    NonEmptyDays [("2024-05-01", ["a"]), ("2024-05-02", ["a", "b"])] ∧
      NonEmptyDays (toggleCompletion [("2024-05-01", ["a"]), ("2024-05-02", ["a", "b"])]
        "2024-05-01" "a") ∧
      NonEmptyDays (deleteHabit [] [("2024-05-01", ["a"]), ("2024-05-02", ["a", "b"])] "b").2 := by
  refine ⟨by decide, ?_⟩
  have := claim_C1_nonEmptyDays_preserved [] [("2024-05-01", ["a"]), ("2024-05-02", ["a", "b"])]
    "2024-05-01" "a" "b" (by decide)
  exact this

-- ### Observation lemmas for `toggleCompletion`

theorem lookupDay_toggle (L : Log) (d : DateKey) (h : HabitId) (d' : DateKey) :
    lookupDay (toggleCompletion L d h) d' =
      if d' = d then
        (if (dayToggle ((lookupDay L d).getD []) h).isEmpty then none
         else some (dayToggle ((lookupDay L d).getD []) h))
      else lookupDay L d' := by
  unfold toggleCompletion
  by_cases hE : (dayToggle ((lookupDay L d).getD []) h).isEmpty
  · rw [if_pos hE]
    rw [lookupDay_removeKey]
    by_cases hd : d' = d
    · rw [if_pos hd, if_pos hd, if_pos hE]
    · rw [if_neg hd, if_neg hd, lookupDay_setKey, if_neg hd]
  · rw [if_neg hE]
    rw [lookupDay_setKey]
    by_cases hd : d' = d
    · rw [if_pos hd, if_pos hd, if_neg hE]
    · rw [if_neg hd, if_neg hd]

theorem hasDate_toggle (L : Log) (d : DateKey) (h : HabitId) (d' : DateKey) :
    hasDate (toggleCompletion L d h) d' =
      if d' = d then !(dayToggle ((lookupDay L d).getD []) h).isEmpty
      else hasDate L d' := by
  have h1 := lookupDay_isSome_iff_hasDate (toggleCompletion L d h) d'
  rw [lookupDay_toggle] at h1
  by_cases hd : d' = d
  · rw [if_pos hd] at h1
    rw [if_pos hd]
    by_cases hE : (dayToggle ((lookupDay L d).getD []) h).isEmpty
    · rw [if_pos hE] at h1
      rw [hE]
      simpa using h1.symm
    · rw [if_neg hE] at h1
      rw [Bool.not_eq_true] at hE
      rw [hE]
      simpa using h1.symm
  · rw [if_neg hd] at h1
    rw [if_neg hd, ← h1, lookupDay_isSome_iff_hasDate]

theorem contains_dayToggle_of_ne (day : Day) (h h' : HabitId) (hh : h' ≠ h) :
    (dayToggle day h).contains h' = day.contains h' := by
  unfold dayToggle
  by_cases hc : day.contains h
  · have hmem : h ∈ day := by simpa using hc
    simp [hc, hmem, List.mem_erase_of_ne hh]
  · have hmem : h ∉ day := by simpa using hc
    simp [hc, hmem, hh]

theorem dayToggle_isEmpty_cases {day : Day} {h : HabitId}
    (hE : (dayToggle day h).isEmpty = true) : day = [h] ∨ day = [] := by
  unfold dayToggle at hE
  by_cases hc : day.contains h
  · rw [if_pos hc, List.isEmpty_iff] at hE
    exact Or.inl (erase_eq_nil_of_mem hc hE)
  · rw [if_neg hc, List.isEmpty_iff] at hE
    simp at hE

-- ### Claim C9: toggle only changes the targeted cell

theorem toggle_frame_aux (L : Log) (d : DateKey) (h : HabitId) (d' : DateKey) (h' : HabitId)
    (hne : d' ≠ d ∨ h' ≠ h) :
    isCompleted (toggleCompletion L d h) d' h' = isCompleted L d' h' := by
  unfold isCompleted
  rw [lookupDay_toggle]
  by_cases hd : d' = d
  · have hh : h' ≠ h := by
      rcases hne with hne | hne
      · exact absurd hd hne
      · exact hne
    subst hd
    rw [if_pos rfl]
    by_cases hE : (dayToggle ((lookupDay L d').getD []) h).isEmpty
    · rw [if_pos hE]
      show false = _
      rcases dayToggle_isEmpty_cases hE with hcase | hcase
      · -- the whole day was exactly [h]: pruned now, and h' was not in it before
        cases hs : lookupDay L d' with
        | none => rfl
        | some v =>
          have hgetd : (lookupDay L d').getD [] = v := by rw [hs]; rfl
          have hv : v = [h] := by rw [← hgetd, hcase]
          rw [hv]
          simp [hh]
      · -- the date was absent before and is absent after
        cases hs : lookupDay L d' with
        | none => rfl
        | some v =>
          have hgetd : (lookupDay L d').getD [] = v := by rw [hs]; rfl
          have hv : v = [] := by rw [← hgetd, hcase]
          rw [hv]
          simp
    · rw [if_neg hE]
      show (dayToggle ((lookupDay L d').getD []) h).contains h' = _
      rw [contains_dayToggle_of_ne _ _ _ hh]
      cases hs : lookupDay L d' with
      | none => rfl
      | some v => rfl
  · rw [if_neg hd]

/-- Claim C9: `toggleCompletion` changes only the (date, habit) cell it
targets: every other completion fact reads the same before and after.
(The input log itself is untouched: the embedding is a pure function that
returns a new list, mirroring the object spread-copies in the source.) -/
theorem claim_C9_toggle_frame (L : Log) (d : DateKey) (h : HabitId)
    (d' : DateKey) (h' : HabitId) (hne : ¬(d' = d ∧ h' = h)) :
    isCompleted (toggleCompletion L d h) d' h' = isCompleted L d' h' := by
  apply toggle_frame_aux
  by_cases hd : d' = d
  · right; exact fun hh => hne ⟨hd, hh⟩
  · left; exact hd

/-- Witness for C9 at a concrete log and pair of cells. -/
theorem claim_C9_witness :
    isCompleted (toggleCompletion [("2024-05-01", ["a", "b"])] "2024-05-01" "a")
        "2024-05-01" "b"
      = isCompleted [("2024-05-01", ["a", "b"])] "2024-05-01" "b" :=
  claim_C9_toggle_frame [("2024-05-01", ["a", "b"])] "2024-05-01" "a" "2024-05-01" "b"
    (by decide)

-- ### Claim C2: toggling twice restores the log (as a map)

theorem toggle_toggle_at_key (L : Log) (d : DateKey) (h : HabitId)
    (hnodup : DaysNodup L) (hne : NonEmptyDays L) :
    (∀ h'', isCompleted (toggleCompletion (toggleCompletion L d h) d h) d h''
        = isCompleted L d h'') ∧
      hasDate (toggleCompletion (toggleCompletion L d h) d h) d = hasDate L d := by
  cases hs : lookupDay L d with
  | none =>
    have e0 : (lookupDay L d).getD [] = [] := by rw [hs]; rfl
    have e1 : dayToggle [] h = [h] := by unfold dayToggle; simp
    have l1 : lookupDay (toggleCompletion L d h) d = some [h] := by
      rw [lookupDay_toggle, if_pos rfl, e0, e1]; simp
    have e2 : (lookupDay (toggleCompletion L d h) d).getD [] = [h] := by rw [l1]; rfl
    have e3 : dayToggle [h] h = [] := by unfold dayToggle; simp [List.erase_cons]
    have l2 : lookupDay (toggleCompletion (toggleCompletion L d h) d h) d = none := by
      rw [lookupDay_toggle, if_pos rfl, e2, e3]; simp
    constructor
    · intro h''; unfold isCompleted; rw [l2, hs]
    · have hx : hasDate L d = false := (hasDate_false_iff L d).mpr hs
      rw [hasDate_toggle, if_pos rfl, e2, e3, hx]
      simp
  | some day0 =>
    have hday0mem : (d, day0) ∈ L := lookupDay_mem hs
    have hday0nodup : day0.Nodup := hnodup _ hday0mem
    have hday0ne : day0 ≠ [] := hne _ hday0mem
    have e0 : (lookupDay L d).getD [] = day0 := by rw [hs]; rfl
    have hT : hasDate L d = true := by rw [← lookupDay_isSome_iff_hasDate, hs]; rfl
    by_cases hc : day0.contains h
    · by_cases hE : day0.erase h = []
      · -- day0 = [h]: prune on the first toggle, re-create on the second
        have hday0 : day0 = [h] := erase_eq_nil_of_mem hc hE
        have e1 : dayToggle day0 h = [] := by unfold dayToggle; rw [if_pos hc, hE]
        have l1 : lookupDay (toggleCompletion L d h) d = none := by
          rw [lookupDay_toggle, if_pos rfl, e0, e1]; simp
        have e2 : (lookupDay (toggleCompletion L d h) d).getD [] = [] := by rw [l1]; rfl
        have e3 : dayToggle [] h = [h] := by unfold dayToggle; simp
        have l2 : lookupDay (toggleCompletion (toggleCompletion L d h) d h) d = some [h] := by
          rw [lookupDay_toggle, if_pos rfl, e2, e3]; simp
        constructor
        · intro h''; unfold isCompleted; rw [l2, hs, hday0]
        · rw [hasDate_toggle, if_pos rfl, e2, e3, hT]
          simp
      · -- the erase leaves a non-empty set; the second toggle appends h back
        have e1 : dayToggle day0 h = day0.erase h := by unfold dayToggle; rw [if_pos hc]
        have l1 : lookupDay (toggleCompletion L d h) d = some (day0.erase h) := by
          rw [lookupDay_toggle, if_pos rfl, e0, e1]
          simp [hE]
        have e2 : (lookupDay (toggleCompletion L d h) d).getD [] = day0.erase h := by
          rw [l1]; rfl
        have hnm : h ∉ day0.erase h := hday0nodup.not_mem_erase
        have e3 : dayToggle (day0.erase h) h = day0.erase h ++ [h] := by
          unfold dayToggle
          rw [if_neg (by simpa using hnm)]
        have l2 : lookupDay (toggleCompletion (toggleCompletion L d h) d h) d
            = some (day0.erase h ++ [h]) := by
          rw [lookupDay_toggle, if_pos rfl, e2, e3]
          simp
        constructor
        · intro h''
          unfold isCompleted
          rw [l2, hs]
          by_cases hhh : h'' = h
          · subst hhh
            have hm : h'' ∈ day0 := by simpa using hc
            simp [hm]
          · simp [hhh, List.mem_erase_of_ne hhh]
        · rw [hasDate_toggle, if_pos rfl, e2, e3, hT]
          simp
    · -- h was absent: the first toggle appends it, the second erases it again
      have hnm : h ∉ day0 := by simpa using hc
      have e1 : dayToggle day0 h = day0 ++ [h] := by unfold dayToggle; rw [if_neg hc]
      have l1 : lookupDay (toggleCompletion L d h) d = some (day0 ++ [h]) := by
        rw [lookupDay_toggle, if_pos rfl, e0, e1]
        simp
      have e2 : (lookupDay (toggleCompletion L d h) d).getD [] = day0 ++ [h] := by
        rw [l1]; rfl
      have e3 : dayToggle (day0 ++ [h]) h = day0 := by
        unfold dayToggle
        rw [if_pos (by simp), List.erase_append_right _ hnm]
        simp [List.erase_cons]
      have l2 : lookupDay (toggleCompletion (toggleCompletion L d h) d h) d = some day0 := by
        rw [lookupDay_toggle, if_pos rfl, e2, e3]
        simp [hday0ne]
      constructor
      · intro h''; unfold isCompleted; rw [l2, hs]
      · rw [hasDate_toggle, if_pos rfl, e2, e3, hT]
        simp [hday0ne]

theorem toggle_toggle_aux (L : Log) (d : DateKey) (h : HabitId)
    (hnodup : DaysNodup L) (hne : NonEmptyDays L) :
    logEquiv (toggleCompletion (toggleCompletion L d h) d h) L := by
  obtain ⟨hcomp, hdate⟩ := toggle_toggle_at_key L d h hnodup hne
  constructor
  · intro d'
    by_cases hd : d' = d
    · subst hd; exact hdate
    · rw [hasDate_toggle, if_neg hd, hasDate_toggle, if_neg hd]
  · intro d' h''
    by_cases hd : d' = d
    · subst hd; exact hcomp h''
    · unfold isCompleted
      rw [lookupDay_toggle, if_neg hd, lookupDay_toggle, if_neg hd]

/-- Claim C2: on a well-formed log (every present date key maps to a non-empty
set; sets have no duplicate ids, as JS object keys cannot repeat), toggling the
same (date, habit) cell twice yields a log equal to the original as a map from
date keys to sets of habit ids. -/
theorem claim_C2_toggle_involutive (L : Log) (d : DateKey) (h : HabitId)
    (hnodup : DaysNodup L) (hne : NonEmptyDays L) :
    logEquiv (toggleCompletion (toggleCompletion L d h) d h) L :=
  toggle_toggle_aux L d h hnodup hne

/-- Witness for C2 at a concrete log. -/
theorem claim_C2_witness :
    DaysNodup [("2024-05-01", ["a", "b"])] ∧ NonEmptyDays [("2024-05-01", ["a", "b"])] ∧
      logEquiv
        (toggleCompletion (toggleCompletion [("2024-05-01", ["a", "b"])] "2024-05-01" "a")
          "2024-05-01" "a")
        [("2024-05-01", ["a", "b"])] :=
  ⟨by decide, by decide,
    claim_C2_toggle_involutive [("2024-05-01", ["a", "b"])] "2024-05-01" "a"
      (by decide) (by decide)⟩

-- ### JS string and number primitives used by the date-key functions

/-- The decimal digit character of `n % 10`. -/
def digitChar (n : Nat) : Char := Char.ofNat (48 + n % 10)

/-- Fuel-driven decimal digit expansion, structurally recursive so that
concrete date keys evaluate by kernel reduction. -/
def natDigitsAux : Nat → Nat → List Char
  | 0, n => [digitChar n]
  | fuel + 1, n => if n < 10 then [digitChar n] else natDigitsAux fuel (n / 10) ++ [digitChar n]

/-- Decimal digits of a natural number, most significant first: the characters
`String(n)` produces for a non-negative integral JS number (`n` itself is
always enough fuel). -/
def natDigits (n : Nat) : List Char := natDigitsAux n n

/-- `String(i)` for an integral JS number. -/
def jsIntToString (i : Int) : String :=
  if i < 0 then "-" ++ String.mk (natDigits (-i).toNat) else String.mk (natDigits i.toNat)

/-- `pad2(n)` (source line 41): `String(n).padStart(2, "0")`.  The string is
never empty, so at most one zero is prepended. -/
def pad2 (n : Int) : String :=
  let s := jsIntToString n
  if s.length < 2 then "0" ++ s else s

/-- Value of a list of decimal digit characters. -/
def digitsVal (cs : List Char) : Nat :=
  cs.foldl (fun acc c => 10 * acc + (c.toNat - 48)) 0

/-- Model of JS `Number(x)` on an optional string (`none` = `undefined`),
returning `none` for NaN.  It covers the forms the date-key code can build:
the empty string (which JS coerces to 0), decimal digit strings, and
'-'-prefixed digit strings.  Other coercible JS forms (hex, exponents,
fractions, whitespace) never arise from this program's keys and are mapped
to NaN. -/
def jsNumber : Option String → Option Int
  | none => none
  | some s =>
    let cs := s.toList
    if cs = [] then some 0
    else if cs.all (fun c => c.isDigit) then some (digitsVal cs)
    else
      match cs with
      | '-' :: rest =>
        if rest ≠ [] ∧ rest.all (fun c => c.isDigit) then some (-(digitsVal rest : Int))
        else none
      | _ => none

/-- Character-level worker for JS `String.prototype.split` with a
single-character separator. -/
def splitAux (sep : Char) : List Char → List Char → List (List Char)
  | [], acc => [acc.reverse]
  | c :: rest, acc =>
    if c = sep then acc.reverse :: splitAux sep rest [] else splitAux sep rest (c :: acc)

/-- JS `s.split(sep)` for a single-character separator. -/
def jsSplit (s : String) (sep : Char) : List String :=
  (splitAux sep s.toList []).map String.mk

theorem digitChar_toNat (n : Nat) : (digitChar n).toNat = 48 + n % 10 := by
  unfold digitChar
  have h : n % 10 < 10 := Nat.mod_lt _ (by omega)
  set k := n % 10 with hk
  interval_cases k <;> decide

theorem digitChar_isDigit (n : Nat) : (digitChar n).isDigit = true := by
  unfold digitChar
  have h : n % 10 < 10 := Nat.mod_lt _ (by omega)
  set k := n % 10 with hk
  interval_cases k <;> decide

theorem digitsVal_snoc (cs : List Char) (c : Char) :
    digitsVal (cs ++ [c]) = 10 * digitsVal cs + (c.toNat - 48) := by
  simp [digitsVal, List.foldl_append]

theorem natDigitsAux_ne_nil (fuel n : Nat) : natDigitsAux fuel n ≠ [] := by
  cases fuel with
  | zero => simp [natDigitsAux]
  | succ f =>
    unfold natDigitsAux
    split <;> simp

theorem natDigits_ne_nil (n : Nat) : natDigits n ≠ [] := natDigitsAux_ne_nil n n

theorem natDigitsAux_mem_isDigit (fuel : Nat) :
    ∀ n, ∀ c ∈ natDigitsAux fuel n, c.isDigit = true := by
  induction fuel with
  | zero =>
    intro n c hc
    simp [natDigitsAux] at hc
    rw [hc]
    exact digitChar_isDigit n
  | succ f ih =>
    intro n c hc
    unfold natDigitsAux at hc
    split at hc
    · simp at hc
      rw [hc]
      exact digitChar_isDigit n
    · rcases List.mem_append.mp hc with hm | hm
      · exact ih (n / 10) c hm
      · simp at hm
        rw [hm]
        exact digitChar_isDigit n

theorem natDigits_mem_isDigit (n : Nat) : ∀ c ∈ natDigits n, c.isDigit = true :=
  natDigitsAux_mem_isDigit n n

theorem digitsVal_natDigitsAux (fuel : Nat) :
    ∀ n, n ≤ fuel → digitsVal (natDigitsAux fuel n) = n := by
  induction fuel with
  | zero =>
    intro n hn
    have : n = 0 := by omega
    rw [this]
    simp [natDigitsAux, digitsVal, digitChar_toNat]
  | succ f ih =>
    intro n hn
    unfold natDigitsAux
    split
    next h =>
      simp [digitsVal, digitChar_toNat]
      omega
    next h =>
      rw [digitsVal_snoc, ih (n / 10) (by omega), digitChar_toNat]
      omega

theorem digitsVal_natDigits (n : Nat) : digitsVal (natDigits n) = n :=
  digitsVal_natDigitsAux n n (le_refl n)

theorem toList_mk (l : List Char) : (String.mk l).toList = l := rfl

theorem jsNumber_mk_natDigits (n : Nat) :
    jsNumber (some (String.mk (natDigits n))) = some (n : Int) := by
  unfold jsNumber
  simp only [toList_mk]
  rw [if_neg (natDigits_ne_nil n)]
  rw [if_pos (List.all_eq_true.mpr (natDigits_mem_isDigit n))]
  rw [digitsVal_natDigits]

theorem digitsVal_cons_zero (cs : List Char) : digitsVal ('0' :: cs) = digitsVal cs := by
  simp [digitsVal, List.foldl]

theorem jsNumber_pad2 (i : Int) (h0 : 0 ≤ i) (h99 : i ≤ 99) :
    jsNumber (some (pad2 i)) = some i := by
  have hs : jsIntToString i = String.mk (natDigits i.toNat) := by
    unfold jsIntToString
    rw [if_neg (by omega)]
  unfold pad2
  rw [hs]
  by_cases hl : (String.mk (natDigits i.toNat)).length < 2
  · rw [if_pos hl]
    unfold jsNumber
    have htl : ("0" ++ String.mk (natDigits i.toNat)).toList = '0' :: natDigits i.toNat := rfl
    simp only [htl]
    rw [if_neg (by simp)]
    rw [if_pos ?hall]
    case hall =>
      apply List.all_eq_true.mpr
      intro c hc
      rcases List.mem_cons.mp hc with hm | hm
      · rw [hm]; decide
      · exact natDigits_mem_isDigit _ c hm
    rw [digitsVal_cons_zero, digitsVal_natDigits]
    congr 1
    omega
  · rw [if_neg hl, jsNumber_mk_natDigits]
    congr 1
    omega

theorem splitAux_no_sep (sep : Char) (l : List Char) (acc : List Char) (h : sep ∉ l) :
    splitAux sep l acc = [acc.reverse ++ l] := by
  induction l generalizing acc with
  | nil => simp [splitAux]
  | cons c rest ih =>
    have hc : c ≠ sep := fun he => h (he ▸ List.mem_cons_self c rest)
    rw [splitAux, if_neg hc, ih (c :: acc) (fun hm => h (List.mem_cons_of_mem _ hm))]
    simp

theorem splitAux_sep_append (sep : Char) (l1 l2 acc : List Char) (h : sep ∉ l1) :
    splitAux sep (l1 ++ sep :: l2) acc = (acc.reverse ++ l1) :: splitAux sep l2 [] := by
  induction l1 generalizing acc with
  | nil => simp [splitAux]
  | cons c rest ih =>
    have hc : c ≠ sep := fun he => h (he ▸ List.mem_cons_self c rest)
    rw [List.cons_append, splitAux, if_neg hc,
      ih (c :: acc) (fun hm => h (List.mem_cons_of_mem _ hm))]
    simp

-- ### The civil (proleptic Gregorian) calendar
--
-- JS `Date` values in this program always sit at local midnight, so we model
-- a date value as its day number (days since 1970-01-01, negative before).
-- `daysToCivil` models the getters (`getFullYear`/`getMonth`/`getDate`), and
-- `civilToDays` the field-based constructor `new Date(y, m, d)` after month
-- normalisation.  The year is recovered by an estimate-and-correct step.
-- On Int, `/` and `%` are euclidean, which for the positive divisors used
-- here coincide with the floor semantics of the calendar arithmetic.

/-- Day-of-era of March 1st of year-of-era `yoe` (years counted from March,
era = 400 Gregorian years = 146097 days). -/
def yoeStart (yoe : Int) : Int := 365 * yoe + yoe / 4 - yoe / 100

/-- Year-of-era containing day-of-era `doe`: estimate `doe / 365`, clamp to
399, and correct down by one if the estimate starts after `doe`. -/
def doeToYoe (doe : Int) : Int :=
  let yoe1 := if 399 < doe / 365 then 399 else doe / 365
  if doe < yoeStart yoe1 then yoe1 - 1 else yoe1

/-- Day number of the calendar date (y, m, d); `m` is 1-based and `d` may be
out of range (the value is linear in `d`, matching `MakeDay`'s treatment of
the day argument). -/
def civilToDays (y m d : Int) : Int :=
  let y2 := if m ≤ 2 then y - 1 else y
  let era := y2 / 400
  let yoe := y2 - era * 400
  let mp := (m + 9) % 12
  let doy := (153 * mp + 2) / 5 + d - 1
  let doe := yoeStart yoe + doy
  era * 146097 + doe - 719468

/-- Calendar date (year, month 1-12, day 1-31) of a day number. -/
def daysToCivil (z : Int) : Int × Int × Int :=
  let z2 := z + 719468
  let era := z2 / 146097
  let doe := z2 % 146097
  let yoe := doeToYoe doe
  let doy := doe - yoeStart yoe
  let mp := (5 * doy + 2) / 153
  let d := doy - (153 * mp + 2) / 5 + 1
  let m := if mp < 10 then mp + 3 else mp - 9
  (if m ≤ 2 then yoe + era * 400 + 1 else yoe + era * 400, m, d)

theorem doeToYoe_spec (doe : Int) (h0 : 0 ≤ doe) (h1 : doe ≤ 146096) :
    0 ≤ doeToYoe doe ∧ doeToYoe doe ≤ 399 ∧ yoeStart (doeToYoe doe) ≤ doe ∧
      doe - yoeStart (doeToYoe doe) ≤ 365 := by
  simp only [doeToYoe, yoeStart]
  split_ifs <;> omega

theorem mp_to_month (doy : Int) (h0 : 0 ≤ doy) (h1 : doy ≤ 365) :
    0 ≤ (5 * doy + 2) / 153 ∧ (5 * doy + 2) / 153 ≤ 11 ∧
      (153 * ((5 * doy + 2) / 153) + 2) / 5 ≤ doy ∧
      doy - (153 * ((5 * doy + 2) / 153) + 2) / 5 ≤ 30 := by
  omega

/-- Formatting a day number and re-reading the civil fields is the identity:
`civilToDays` is a left inverse of `daysToCivil`. -/
theorem civilToDays_daysToCivil (z : Int) :
    civilToDays (daysToCivil z).1 (daysToCivil z).2.1 (daysToCivil z).2.2 = z := by
  rcases h : daysToCivil z with ⟨y, m, d⟩
  simp only [daysToCivil, Prod.mk.injEq] at h
  obtain ⟨hy, hm, hd⟩ := h
  have hdoe0 : 0 ≤ (z + 719468) % 146097 := by omega
  have hdoe1 : (z + 719468) % 146097 ≤ 146096 := by omega
  have hrel : z + 719468
      = (z + 719468) / 146097 * 146097 + (z + 719468) % 146097 := by omega
  have hyoe := doeToYoe_spec ((z + 719468) % 146097) hdoe0 hdoe1
  have hmp := mp_to_month ((z + 719468) % 146097 - yoeStart (doeToYoe ((z + 719468) % 146097)))
    (by omega) (by omega)
  set doe := (z + 719468) % 146097 with hdoeDef
  set era := (z + 719468) / 146097 with heraDef
  set yoe := doeToYoe doe with hyoeDef
  set doy := doe - yoeStart yoe with hdoyDef
  set mp := (5 * doy + 2) / 153 with hmpDef
  clear_value mp doy yoe era doe
  have hr : (m + 9) % 12 = mp := by
    rcases hmp with ⟨hmp0, hmp1, -, -⟩
    split_ifs at hm <;> omega
  rw [hm] at hy
  simp only [civilToDays, yoeStart]
  simp only [yoeStart] at *
  rw [hr]
  rcases hyoe with ⟨hyoe0, hyoe1, hyoe2, hyoe3⟩
  split_ifs at hy ⊢ with hcond
  · have hy2 : y - 1 = yoe + era * 400 := by omega
    rw [hy2]
    have hrec : yoe + era * 400 - (yoe + era * 400) / 400 * 400 = yoe := by omega
    rw [hrec]
    have h400 : (yoe + era * 400) / 400 = era := by omega
    rw [h400]
    omega
  · have hy2 : y = yoe + era * 400 := hy.symm
    rw [hy2]
    have hrec : yoe + era * 400 - (yoe + era * 400) / 400 * 400 = yoe := by omega
    rw [hrec]
    have h400 : (yoe + era * 400) / 400 = era := by omega
    rw [h400]
    omega

theorem doeToYoe_exact (yoe doy : Int) (h0 : 0 ≤ yoe) (h1 : yoe ≤ 399)
    (h2 : 0 ≤ doy) (h3 : doy ≤ 364) :
    doeToYoe (yoeStart yoe + doy) = yoe := by
  have hq4 : 4 * (yoe / 4) ≤ yoe := by omega
  have hq100 : yoe - 100 * (yoe / 100) ≤ 99 := by omega
  have hest0 : yoe ≤ (yoeStart yoe + doy) / 365 := by
    rw [Int.le_ediv_iff_mul_le (by omega)]
    simp only [yoeStart]
    omega
  have hest1 : (yoeStart yoe + doy) / 365 < yoe + 2 := by
    rw [Int.ediv_lt_iff_lt_mul (by omega)]
    simp only [yoeStart]
    omega
  simp only [doeToYoe]
  set E := (yoeStart yoe + doy) / 365 with hE
  clear_value E
  have hcases : E = yoe ∨ E = yoe + 1 := by omega
  have hstep : yoeStart yoe + 365 ≤ yoeStart (yoe + 1) := by
    simp only [yoeStart]
    omega
  rcases hcases with hc | hc
  · have hclamp : ¬ 399 < E := by omega
    have hcor : ¬ yoeStart yoe + doy < yoeStart E := by
      rw [hc]
      simp only [yoeStart]
      omega
    simp only [if_neg hclamp, if_neg hcor]
    exact hc
  · by_cases hclamp : 399 < E
    · have hy399 : yoe = 399 := by omega
      have hE400 : E = 400 := by omega
      have hcor : ¬ yoeStart yoe + doy < yoeStart 399 := by
        rw [hy399]
        simp only [yoeStart]
        omega
      simp only [if_pos hclamp, if_neg hcor]
      omega
    · have hcor : yoeStart yoe + doy < yoeStart E := by
        rw [hc]
        simp only [yoeStart]
        omega
      simp only [if_neg hclamp, if_pos hcor]
      omega

theorem month_recover (mpC : Int) (h0 : 0 ≤ mpC) (h1 : mpC ≤ 11) :
    (5 * ((153 * mpC + 2) / 5) + 2) / 153 = mpC := by
  omega

theorem daysToCivil_civilToDays_d1 (Y M : Int) (h1 : 1 ≤ M) (h2 : M ≤ 12) :
    daysToCivil (civilToDays Y M 1) = (Y, M, 1) := by
  have hyoeCb : 0 ≤ (if M ≤ 2 then Y - 1 else Y) - (if M ≤ 2 then Y - 1 else Y) / 400 * 400
      ∧ (if M ≤ 2 then Y - 1 else Y) - (if M ≤ 2 then Y - 1 else Y) / 400 * 400 ≤ 399 := by
    split_ifs <;> omega
  have hdoyCb : 0 ≤ (153 * ((M + 9) % 12) + 2) / 5
      ∧ (153 * ((M + 9) % 12) + 2) / 5 ≤ 337 := by omega
  have hz : civilToDays Y M 1 + 719468
      = ((if M ≤ 2 then Y - 1 else Y) / 400) * 146097
        + (yoeStart ((if M ≤ 2 then Y - 1 else Y)
              - (if M ≤ 2 then Y - 1 else Y) / 400 * 400)
           + (153 * ((M + 9) % 12) + 2) / 5) := by
    simp only [civilToDays, yoeStart]
    split_ifs <;> omega
  have hdoeb : 0 ≤ yoeStart ((if M ≤ 2 then Y - 1 else Y)
        - (if M ≤ 2 then Y - 1 else Y) / 400 * 400)
      + (153 * ((M + 9) % 12) + 2) / 5
      ∧ yoeStart ((if M ≤ 2 then Y - 1 else Y)
        - (if M ≤ 2 then Y - 1 else Y) / 400 * 400)
      + (153 * ((M + 9) % 12) + 2) / 5 ≤ 146096 := by
    simp only [yoeStart]
    split_ifs at hyoeCb ⊢ <;> omega
  have hmod : (civilToDays Y M 1 + 719468) % 146097
      = yoeStart ((if M ≤ 2 then Y - 1 else Y)
          - (if M ≤ 2 then Y - 1 else Y) / 400 * 400)
        + (153 * ((M + 9) % 12) + 2) / 5 := by
    rw [hz]
    omega
  have hdiv : (civilToDays Y M 1 + 719468) / 146097
      = (if M ≤ 2 then Y - 1 else Y) / 400 := by
    rw [hz]
    omega
  have hyoeE : doeToYoe ((civilToDays Y M 1 + 719468) % 146097)
      = (if M ≤ 2 then Y - 1 else Y) - (if M ≤ 2 then Y - 1 else Y) / 400 * 400 := by
    rw [hmod]
    exact doeToYoe_exact _ _ hyoeCb.1 hyoeCb.2 hdoyCb.1 (by omega)
  simp only [daysToCivil]
  rw [hyoeE, hmod, hdiv]
  have hdoyE : yoeStart ((if M ≤ 2 then Y - 1 else Y)
        - (if M ≤ 2 then Y - 1 else Y) / 400 * 400)
      + (153 * ((M + 9) % 12) + 2) / 5
      - yoeStart ((if M ≤ 2 then Y - 1 else Y)
        - (if M ≤ 2 then Y - 1 else Y) / 400 * 400)
      = (153 * ((M + 9) % 12) + 2) / 5 := by omega
  rw [hdoyE]
  rw [month_recover ((M + 9) % 12) (by omega) (by omega)]
  clear hz hmod hdiv hyoeE hdoeb
  simp only [yoeStart] at *
  simp only [Prod.mk.injEq]
  split_ifs <;> omega

theorem daysToCivil_md_bounds (z : Int) :
    1 ≤ (daysToCivil z).2.1 ∧ (daysToCivil z).2.1 ≤ 12 ∧
      1 ≤ (daysToCivil z).2.2 ∧ (daysToCivil z).2.2 ≤ 31 := by
  rcases h : daysToCivil z with ⟨y, m, d⟩
  simp only [daysToCivil, Prod.mk.injEq] at h
  obtain ⟨hy, hm, hd⟩ := h
  have hdoe0 : 0 ≤ (z + 719468) % 146097 := by omega
  have hdoe1 : (z + 719468) % 146097 ≤ 146096 := by omega
  have hyoe := doeToYoe_spec ((z + 719468) % 146097) hdoe0 hdoe1
  have hmp := mp_to_month ((z + 719468) % 146097 - yoeStart (doeToYoe ((z + 719468) % 146097)))
    (by omega) (by omega)
  set doe := (z + 719468) % 146097 with hdoeDef
  set yoe := doeToYoe doe with hyoeDef
  set doy := doe - yoeStart yoe with hdoyDef
  set mp := (5 * doy + 2) / 153 with hmpDef
  clear_value mp doy yoe doe
  show 1 ≤ m ∧ m ≤ 12 ∧ 1 ≤ d ∧ d ≤ 31
  split_ifs at hm <;> omega

theorem daysToCivil_year_range (z : Int) (hlo : -683003 ≤ z) (hhi : z ≤ 97000000) :
    100 ≤ (daysToCivil z).1 ∧ (daysToCivil z).1 ≤ 267600 := by
  rcases h : daysToCivil z with ⟨y, m, d⟩
  simp only [daysToCivil, Prod.mk.injEq] at h
  obtain ⟨hy, hm, hd⟩ := h
  have hdoe0 : 0 ≤ (z + 719468) % 146097 := by omega
  have hdoe1 : (z + 719468) % 146097 ≤ 146096 := by omega
  have hrel : z + 719468
      = (z + 719468) / 146097 * 146097 + (z + 719468) % 146097 := by omega
  have hera0 : 0 ≤ (z + 719468) / 146097 := by omega
  have hera1 : (z + 719468) / 146097 ≤ 668 := by omega
  have hyoe := doeToYoe_spec ((z + 719468) % 146097) hdoe0 hdoe1
  have hmp := mp_to_month ((z + 719468) % 146097 - yoeStart (doeToYoe ((z + 719468) % 146097)))
    (by omega) (by omega)
  set doe := (z + 719468) % 146097 with hdoeDef
  set era := (z + 719468) / 146097 with heraDef
  set yoe := doeToYoe doe with hyoeDef
  set doy := doe - yoeStart yoe with hdoyDef
  set mp := (5 * doy + 2) / 153 with hmpDef
  clear_value mp doy yoe era doe
  show 100 ≤ y ∧ y ≤ 267600
  simp only [yoeStart] at *
  split_ifs at hy hm <;> omega

-- ### JS Date operations used by the source

/-- The `new Date(year, month, day)` constructor at local midnight:
ECMAScript remaps years 0-99 to 1900+year, normalises the month index into
[0, 11] carrying into the year, treats the day argument linearly, yields an
invalid date (`none`) when an argument is NaN (`none`), and clips values
outside the representable range of about ±100,000,000 days. -/
def jsMakeDay (y m0 d : Option Int) : Option Int :=
  match y, m0, d with
  | some y, some m0, some d =>
    let y1 := if 0 ≤ y ∧ y ≤ 99 then 1900 + y else y
    let ym := y1 + m0 / 12
    let mn := m0 % 12
    let z := civilToDays ym (mn + 1) d
    if z.natAbs ≤ 100000000 then some z else none
  | _, _, _ => none

/-- `toISODate(d)` (source lines 42-45) on a valid date value:
year, dash, 2-padded month, dash, 2-padded day, from the local fields. -/
def toISODate (z : Int) : String :=
  jsIntToString (daysToCivil z).1 ++ "-" ++ pad2 (daysToCivil z).2.1
    ++ "-" ++ pad2 (daysToCivil z).2.2

/-- `parseISODate(iso)` (source lines 46-49):
`const [y, m, d] = iso.split("-").map(Number); return new Date(y, m - 1, d)`.
Destructuring a short array yields `undefined` (`none`) components. -/
def parseISODate (iso : String) : Option Int :=
  let comps := jsSplit iso '-'
  jsMakeDay (jsNumber (comps.get? 0)) ((jsNumber (comps.get? 1)).map (fun v => v - 1))
    (jsNumber (comps.get? 2))

/-- `getDate()`: the day-of-month field. -/
def jsGetDate (z : Int) : Int := (daysToCivil z).2.2

/-- `setDate(n)`: rebuild the date from its year and month with day `n`
(out-of-range days roll over, linearly, as in `MakeDay`). -/
def jsSetDate (z : Int) (n : Int) : Int :=
  civilToDays (daysToCivil z).1 (daysToCivil z).2.1 n

/-- `addDays(date, n)` (source lines 50-54): `d.setDate(d.getDate() + n)`. -/
def addDays (z : Int) (n : Int) : Int := jsSetDate z (jsGetDate z + n)

/-- `getDay()`: day of week, 0 = Sunday (1970-01-01 was a Thursday, 4). -/
def jsGetDay (z : Int) : Int := (z + 4) % 7

/-- `startOfWeek(date, weekStartsOn)` (source lines 55-62).  The JS `%` here
acts on a non-negative operand, so it agrees with the euclidean `%`. -/
def startOfWeek (z : Int) (weekStartsOn : Int) : Int :=
  let diff := (jsGetDay z - weekStartsOn + 7) % 7
  jsSetDate z (jsGetDate z - diff)

/-- `startOfMonth(date)` (source lines 63-68): `d.setDate(1)`. -/
def startOfMonth (z : Int) : Int := jsSetDate z 1

/-- `getMonth()`: the 0-based month field. -/
def jsGetMonth0 (z : Int) : Int := (daysToCivil z).2.1 - 1

/-- `setMonth(mi)`: rebuild from the year with month index `mi` normalised
into the year (ECMAScript `MakeDay`), keeping the day-of-month field. -/
def jsSetMonth (z : Int) (mi : Int) : Int :=
  civilToDays ((daysToCivil z).1 + mi / 12) (mi % 12 + 1) (daysToCivil z).2.2

theorem civilToDays_day_linear (y m d n : Int) :
    civilToDays y m (d + n) = civilToDays y m d + n := by
  simp only [civilToDays]
  split_ifs <;> ring

theorem addDays_eq (z n : Int) : addDays z n = z + n := by
  unfold addDays jsSetDate jsGetDate
  have h1 := civilToDays_daysToCivil z
  rw [civilToDays_day_linear] at *
  omega

/-- `dateRangeInclusive`'s enumeration loop (source line 140):
`for (let d = new Date(start); d <= end; d = addDays(d, 1)) out.push(toISODate(d))`. -/
def dateRangeGo (e : Int) (d : Int) : List String :=
  if h : d ≤ e then toISODate d :: dateRangeGo e (addDays d 1) else []
termination_by (e + 1 - d).toNat
decreasing_by
  have h2 := addDays_eq d 1
  omega

/-- `dateRangeInclusive(startISO, endISO)` (source lines 134-142).  An
unparseable endpoint gives NaN comparisons, so the loop body never runs. -/
def dateRangeInclusive (startISO endISO : String) : List String :=
  match parseISODate startISO, parseISODate endISO with
  | some s, some e => dateRangeGo e s
  | _, _ => []

/-- The consecutive day numbers from `s` to `e` inclusive (empty if `e < s`). -/
def intRange (s e : Int) : List Int :=
  (List.range (e + 1 - s).toNat).map (fun k => s + Int.ofNat k)

theorem intRange_len (s e : Int) : (intRange s e).length = (e + 1 - s).toNat := by
  simp [intRange]

theorem intRange_cons (s e : Int) (h : s ≤ e) : intRange s e = s :: intRange (s + 1) e := by
  unfold intRange
  have hn : (e + 1 - s).toNat = (e + 1 - (s + 1)).toNat + 1 := by omega
  rw [hn, List.range_succ_eq_map, List.map_cons, List.map_map]
  congr 1
  · simp
  · apply List.map_congr_left
    intro a _
    simp only [Function.comp]
    have hs : Int.ofNat a.succ = Int.ofNat a + 1 := rfl
    rw [hs]
    ring

theorem intRange_nil (s e : Int) (h : e < s) : intRange s e = [] := by
  unfold intRange
  have hn : (e + 1 - s).toNat = 0 := by omega
  rw [hn]
  rfl

theorem dateRangeGo_eq_map (e s : Int) :
    dateRangeGo e s = (intRange s e).map toISODate := by
  by_cases h : s ≤ e
  · rw [dateRangeGo, dif_pos h, addDays_eq, dateRangeGo_eq_map e (s + 1),
      intRange_cons s e h, List.map_cons]
  · rw [dateRangeGo, dif_neg h, intRange_nil s e (by omega), List.map_nil]
termination_by (e + 1 - s).toNat
decreasing_by omega

-- ### Date keys as strings: splitting and the parse round trip

theorem natDigits_not_dash (n : Nat) : '-' ∉ natDigits n := by
  intro hm
  exact absurd (natDigits_mem_isDigit n '-' hm) (by decide)

theorem jsIntToString_nonneg (i : Int) (h : 0 ≤ i) :
    jsIntToString i = String.mk (natDigits i.toNat) := by
  unfold jsIntToString
  rw [if_neg (by omega)]

theorem pad2_not_dash (i : Int) (h : 0 ≤ i) : '-' ∉ (pad2 i).toList := by
  unfold pad2
  rw [jsIntToString_nonneg i h]
  by_cases hl : (String.mk (natDigits i.toNat)).length < 2
  · rw [if_pos hl]
    intro hm
    have htl : ("0" ++ String.mk (natDigits i.toNat)).toList = '0' :: natDigits i.toNat := rfl
    rw [htl] at hm
    rcases List.mem_cons.mp hm with hm | hm
    · exact absurd hm (by decide)
    · exact natDigits_not_dash _ hm
  · rw [if_neg hl]
    exact natDigits_not_dash _

theorem mk_toList (s : String) : String.mk s.toList = s := rfl

theorem jsSplit_toISODate (z : Int) (hy : 0 ≤ (daysToCivil z).1) :
    jsSplit (toISODate z) '-'
      = [jsIntToString (daysToCivil z).1, pad2 (daysToCivil z).2.1,
          pad2 (daysToCivil z).2.2] := by
  have hmd := daysToCivil_md_bounds z
  unfold toISODate jsSplit
  have htl : (jsIntToString (daysToCivil z).1 ++ "-" ++ pad2 (daysToCivil z).2.1
        ++ "-" ++ pad2 (daysToCivil z).2.2).toList
      = (jsIntToString (daysToCivil z).1).toList
        ++ '-' :: ((pad2 (daysToCivil z).2.1).toList
          ++ '-' :: (pad2 (daysToCivil z).2.2).toList) := by
    show ((((jsIntToString (daysToCivil z).1 ++ "-") ++ pad2 (daysToCivil z).2.1)
        ++ "-") ++ pad2 (daysToCivil z).2.2).data = _
    simp only [String.data_append]
    simp
  rw [htl]
  have hnd1 : '-' ∉ (jsIntToString (daysToCivil z).1).toList := by
    rw [jsIntToString_nonneg _ hy]
    exact natDigits_not_dash _
  rw [splitAux_sep_append '-' _ _ [] hnd1]
  rw [splitAux_sep_append '-' _ _ [] (pad2_not_dash _ (by omega))]
  rw [splitAux_no_sep '-' _ [] (pad2_not_dash _ (by omega))]
  simp only [List.reverse_nil, List.nil_append, List.map_cons, List.map_nil]
  rw [mk_toList, mk_toList, mk_toList]

theorem parse_toISODate (z : Int) (h1 : -683003 ≤ z) (h2 : z ≤ 97000000) :
    parseISODate (toISODate z) = some z := by
  have hmd := daysToCivil_md_bounds z
  have hyr := daysToCivil_year_range z h1 h2
  simp only [parseISODate]
  rw [jsSplit_toISODate z (by omega)]
  have hg0 : [jsIntToString (daysToCivil z).1, pad2 (daysToCivil z).2.1,
      pad2 (daysToCivil z).2.2].get? 0 = some (jsIntToString (daysToCivil z).1) := rfl
  have hg1 : [jsIntToString (daysToCivil z).1, pad2 (daysToCivil z).2.1,
      pad2 (daysToCivil z).2.2].get? 1 = some (pad2 (daysToCivil z).2.1) := rfl
  have hg2 : [jsIntToString (daysToCivil z).1, pad2 (daysToCivil z).2.1,
      pad2 (daysToCivil z).2.2].get? 2 = some (pad2 (daysToCivil z).2.2) := rfl
  rw [hg0, hg1, hg2]
  have hy : jsNumber (some (jsIntToString (daysToCivil z).1)) = some (daysToCivil z).1 := by
    rw [jsIntToString_nonneg _ (by omega), jsNumber_mk_natDigits]
    congr 1
    omega
  rw [hy, jsNumber_pad2 _ (by omega) (by omega), jsNumber_pad2 _ (by omega) (by omega)]
  simp only [Option.map_some']
  simp only [jsMakeDay]
  have hq : ¬(0 ≤ (daysToCivil z).1 ∧ (daysToCivil z).1 ≤ 99) := by omega
  rw [if_neg hq]
  have hm12 : ((daysToCivil z).2.1 - 1) / 12 = 0 := by omega
  have hm12b : ((daysToCivil z).2.1 - 1) % 12 = (daysToCivil z).2.1 - 1 := by omega
  rw [hm12, hm12b, add_zero]
  have hc : (daysToCivil z).2.1 - 1 + 1 = (daysToCivil z).2.1 := by ring
  rw [hc, civilToDays_daysToCivil]
  rw [if_pos (by omega)]

theorem jsSplit_toISODate_neg (z : Int) (hy : (daysToCivil z).1 < 0) :
    jsSplit (toISODate z) '-'
      = ["", String.mk (natDigits (-(daysToCivil z).1).toNat), pad2 (daysToCivil z).2.1,
          pad2 (daysToCivil z).2.2] := by
  have hmd := daysToCivil_md_bounds z
  unfold toISODate jsSplit
  have hneg : jsIntToString (daysToCivil z).1
      = "-" ++ String.mk (natDigits (-(daysToCivil z).1).toNat) := by
    unfold jsIntToString
    rw [if_pos hy]
  rw [hneg]
  have htl : ("-" ++ String.mk (natDigits (-(daysToCivil z).1).toNat) ++ "-"
        ++ pad2 (daysToCivil z).2.1 ++ "-" ++ pad2 (daysToCivil z).2.2).toList
      = '-' :: (natDigits (-(daysToCivil z).1).toNat
        ++ '-' :: ((pad2 (daysToCivil z).2.1).toList
          ++ '-' :: (pad2 (daysToCivil z).2.2).toList)) := by
    show ((((("-" ++ String.mk (natDigits (-(daysToCivil z).1).toNat)) ++ "-")
        ++ pad2 (daysToCivil z).2.1) ++ "-") ++ pad2 (daysToCivil z).2.2).data = _
    simp only [String.data_append]
    simp
  rw [htl]
  rw [splitAux, if_pos rfl]
  rw [splitAux_sep_append '-' _ _ [] (natDigits_not_dash _)]
  rw [splitAux_sep_append '-' _ _ [] (pad2_not_dash _ (by omega))]
  rw [splitAux_no_sep '-' _ [] (pad2_not_dash _ (by omega))]
  simp only [List.reverse_nil, List.nil_append, List.map_cons, List.map_nil]
  rw [mk_toList, mk_toList]

theorem mk_natDigits_inj {n1 n2 : Nat}
    (h : String.mk (natDigits n1) = String.mk (natDigits n2)) : n1 = n2 := by
  have hdl : natDigits n1 = natDigits n2 := congrArg String.data h
  have := digitsVal_natDigits n1
  rw [hdl, digitsVal_natDigits] at this
  omega

theorem pad2_inj {a b : Int} (ha0 : 0 ≤ a) (ha1 : a ≤ 99) (hb0 : 0 ≤ b) (hb1 : b ≤ 99)
    (h : pad2 a = pad2 b) : a = b := by
  have h1 := jsNumber_pad2 a ha0 ha1
  have h2 := jsNumber_pad2 b hb0 hb1
  rw [h, h2] at h1
  exact (Option.some.injEq _ _).mp h1.symm

/-- `toISODate` is injective whenever one of the two day numbers lies in the
well-behaved range (here the other key is forced into the same shape). -/
theorem toISODate_inj_ranged {z z' : Int} (h1 : -683003 ≤ z') (h2 : z' ≤ 97000000)
    (h : toISODate z = toISODate z') : z = z' := by
  have hmd := daysToCivil_md_bounds z
  have hmd' := daysToCivil_md_bounds z'
  have hyr' := daysToCivil_year_range z' h1 h2
  have hsplit := congrArg (fun s => jsSplit s '-') h
  simp only at hsplit
  rw [jsSplit_toISODate z' (by omega)] at hsplit
  by_cases hy : 0 ≤ (daysToCivil z).1
  · rw [jsSplit_toISODate z hy] at hsplit
    simp only [List.cons.injEq, and_true] at hsplit
    obtain ⟨e1, e2, e3⟩ := hsplit
    rw [jsIntToString_nonneg _ hy, jsIntToString_nonneg _ (by omega)] at e1
    have hyeq : (daysToCivil z).1 = (daysToCivil z').1 := by
      have := mk_natDigits_inj e1
      omega
    have hmeq : (daysToCivil z).2.1 = (daysToCivil z').2.1 :=
      pad2_inj (by omega) (by omega) (by omega) (by omega) e2
    have hdeq : (daysToCivil z).2.2 = (daysToCivil z').2.2 :=
      pad2_inj (by omega) (by omega) (by omega) (by omega) e3
    have hc1 := civilToDays_daysToCivil z
    have hc2 := civilToDays_daysToCivil z'
    rw [hyeq, hmeq, hdeq] at hc1
    rw [hc2] at hc1
    exact hc1.symm
  · rw [jsSplit_toISODate_neg z (by omega)] at hsplit
    exfalso
    have hl := congrArg List.length hsplit
    simp at hl

-- ### The rollup engine and summaries

/-- Exact-rational model of `Math.round((num / den) * 100)` for `den > 0`:
round-half-up of `100 * num / den`.  No claim depends on float rounding at
half-integers, where the binary floats could differ from exact rationals. -/
def jsRoundPct (num den : Nat) : Nat := (200 * num + den) / (2 * den)

/-- A point of `rollupDaily` (source lines 150-163).  The locale-dependent
display `label` is omitted from the embedding. -/
structure DailyPoint where
  dateISO : String
  completed : Nat
  total : Nat
  rate : Nat

/-- `rollupDaily` (source lines 150-163); the `reduce`-based count is the
length of the filtered active list. -/
def rollupDaily (habits : List Habit) (L : Log) (startISO endISO : String) :
    List DailyPoint :=
  let active := getActiveHabits habits
  (dateRangeInclusive startISO endISO).map (fun iso =>
    let completedCount := (active.filter (fun h => isCompleted L iso h.id)).length
    { dateISO := iso, completed := completedCount, total := active.length,
      rate := if 0 < active.length then jsRoundPct completedCount active.length else 0 })

/-- A point of `rollupWeekly` (source lines 165-196); the display label is
omitted; the per-habit count object is a list of pairs, one per active habit
(the ids of distinct habits are distinct object keys). -/
structure WeeklyPoint where
  weekStartISO : String
  completedTotal : Nat
  totalPossible : Nat
  rate : Nat
  perHabit : List (HabitId × Nat)

/-- `rollupWeekly` (source lines 165-196); `today` stands for `new Date()`.
The source loop runs `i = weeksBack-1` down to `0`, pushing one point each. -/
def rollupWeekly (habits : List Habit) (L : Log) (weeksBack : Nat) (weekStartsOn : Int)
    (today : Int) : List WeeklyPoint :=
  let active := getActiveHabits habits
  let thisWeekStart := startOfWeek today weekStartsOn
  ((List.range weeksBack).reverse).map (fun (i : Nat) =>
    let ws := addDays thisWeekStart (-(7 * (i : Int)))
    let we := addDays ws 6
    let wsISO := toISODate ws
    let weISO := toISODate we
    let days := dateRangeInclusive wsISO weISO
    let perHabit := active.map (fun h =>
      (h.id, (days.filter (fun dISO => isCompleted L dISO h.id)).length))
    let completedTotal := (perHabit.map Prod.snd).sum
    let totalPossible := active.length * 7
    { weekStartISO := wsISO, completedTotal := completedTotal,
      totalPossible := totalPossible,
      rate := if 0 < totalPossible then jsRoundPct completedTotal totalPossible else 0,
      perHabit := perHabit })

/-- A point of `rollupMonthly` (source lines 198-236); display label omitted. -/
structure MonthlyPoint where
  monthISO : String
  completedTotal : Nat
  totalPossible : Nat
  rate : Nat
  daysInMonth : Nat
  perHabit : List (HabitId × Nat)

/-- `rollupMonthly` (source lines 198-236); `today` stands for `new Date()`. -/
def rollupMonthly (habits : List Habit) (L : Log) (monthsBack : Nat) (today : Int) :
    List MonthlyPoint :=
  let active := getActiveHabits habits
  let cur := startOfMonth today
  ((List.range monthsBack).reverse).map (fun (i : Nat) =>
    let mStart := jsSetDate (jsSetMonth cur (jsGetMonth0 cur - (i : Int))) 1
    let nextStart := jsSetMonth mStart (jsGetMonth0 mStart + 1)
    let startISO := toISODate mStart
    let endISO := toISODate (addDays nextStart (-1))
    let days := dateRangeInclusive startISO endISO
    let perHabit := active.map (fun h =>
      (h.id, (days.filter (fun dISO => isCompleted L dISO h.id)).length))
    let completedTotal := (perHabit.map Prod.snd).sum
    let totalPossible := active.length * days.length
    { monthISO := startISO, completedTotal := completedTotal,
      totalPossible := totalPossible,
      rate := if 0 < totalPossible then jsRoundPct completedTotal totalPossible else 0,
      daysInMonth := days.length, perHabit := perHabit })

/-- What `toISODate` renders for an invalid date: every field is NaN. -/
def invalidDateISO : String := "NaN-NaN-NaN"

/-- `computeStreak(habitId, completions)` (source lines 238-247); `today`
stands for `new Date()`.  The loop walks `i = 0 .. 3649`, counting while the
day `today - i` is completed and stopping at the first miss. -/
def computeStreak (habitId : HabitId) (L : Log) (today : Int) : Nat :=
  let todayISO := toISODate today
  ((List.range 3650).takeWhile (fun i =>
    let dISO := match parseISODate todayISO with
      | some z => toISODate (addDays z (-(i : Int)))
      | none => invalidDateISO
    isCompleted L dISO habitId)).length

/-- The `!prev` falsiness test in `computeBestStreak` (null or empty string). -/
def jsFalsyStr : Option String → Bool
  | none => true
  | some s => s.isEmpty

/-- One iteration of `computeBestStreak`'s scan (source lines 252-261),
on the state `(best, cur, prev)`. -/
def bestStep (habitId : HabitId) (L : Log) (st : Nat × Nat × Option String)
    (iso : String) : Nat × Nat × Option String :=
  if isCompleted L iso habitId then
    let cur := if jsFalsyStr st.2.2 then 1
      else
        let nextExpected := match parseISODate ((st.2.2).getD "") with
          | some v => toISODate (addDays v 1)
          | none => invalidDateISO
        if iso = nextExpected then st.2.1 + 1 else 1
    (max st.1 cur, cur, some iso)
  else st

/-- `computeBestStreak(habitId, completions)` (source lines 249-263):
sort the log's date keys (JS default sort: lexicographic) and scan. -/
def computeBestStreak (habitId : HabitId) (L : Log) : Nat :=
  let dates := (L.map Prod.fst).mergeSort (fun a b => decide (a ≤ b))
  (dates.foldl (bestStep habitId L) (0, 0, none)).1

/-- The summary record of `getTodaySummary` (source lines 271-280). -/
structure DaySummary where
  total : Nat
  completed : Nat
  remaining : Nat
  rate : Nat

/-- `getTodaySummary({habits, completions, dateISO})` (source lines 271-280);
the spec calls this operation `getDaySummary`. -/
def getTodaySummary (habits : List Habit) (L : Log) (dateISO : String) : DaySummary :=
  let active := getActiveHabits habits
  let completed := active.filter (fun h => isCompleted L dateISO h.id)
  { total := active.length, completed := completed.length,
    remaining := active.length - completed.length,
    rate := if 0 < active.length then jsRoundPct completed.length active.length else 0 }

/-- `completionRateForHabit` (source lines 265-269). -/
def completionRateForHabit (habitId : HabitId) (L : Log) (startISO endISO : String) : Nat :=
  let days := dateRangeInclusive startISO endISO
  let done := (days.filter (fun iso => isCompleted L iso habitId)).length
  if 0 < days.length then jsRoundPct done days.length else 0

-- ### Claim C3: the date-key round trip

/-- Claim C3 (amended): for every date value from year 100 up to the top of
the JS `Date` range, formatting with `toISODate` and parsing back with
`parseISODate` is an exact round trip.  (As stated over *every* calendar
date the claim fails: years 0-99 hit the Date constructor's two-digit-year
remapping, see the counterexample.) -/
theorem claim_C3_parse_toISODate_roundtrip (z : Int)
    (h1 : -683003 ≤ z) (h2 : z ≤ 97000000) :
    parseISODate (toISODate z) = some z :=
  parse_toISODate z h1 h2

/-- Witness for C3 at the concrete day number 20000 (2024-10-04). -/
theorem claim_C3_witness :
    (-683003 : Int) ≤ 20000 ∧ (20000 : Int) ≤ 97000000 ∧
      parseISODate (toISODate 20000) = some 20000 :=
  ⟨by decide, by decide, claim_C3_parse_toISODate_roundtrip 20000 (by decide) (by decide)⟩

/-- Counterexample for C3 as stated: the calendar day 0050-01-01 (day number
-701265) formats to "50-01-01", which the constructor's two-digit-year rule
reads back as 1950-01-01 (day number -7305), not the original day. -/
theorem claim_C3_counterexample :
    toISODate (-701265) = "50-01-01" ∧
      parseISODate (toISODate (-701265)) = some (-7305) ∧
      parseISODate (toISODate (-701265)) ≠ some (-701265) :=
  ⟨by decide, by decide, by decide⟩

-- ### Claim C5: malformed date keys

/-- Modelled from the spec: the "three-numeric-component `YYYY-MM-DD`
pattern" — exactly three '-'-separated components, each a non-empty string
of decimal digits. -/
def matchesDateKeyPattern (s : String) : Bool :=
  ((jsSplit s '-').length == 3)
    && (jsSplit s '-').all (fun c => (!c.isEmpty) && c.toList.all (fun ch => ch.isDigit))

/-- Claim C5 (amended): `parseDateKey` never throws; a key with fewer than
three '-'-separated components yields an invalid date (the missing third
component destructures to `undefined`, i.e. NaN).  A non-matching key whose
first three components are numeric is silently coerced instead (see the
counterexample). -/
theorem claim_C5_short_key_invalid (s : String) (h : (jsSplit s '-').length < 3) :
    parseISODate s = none := by
  simp only [parseISODate]
  have h2 : (jsSplit s '-').get? 2 = none := List.get?_eq_none.mpr (by omega)
  rw [h2]
  show jsMakeDay _ _ (jsNumber none) = none
  cases jsNumber ((jsSplit s '-').get? 0) with
  | none => rfl
  | some a =>
    cases (jsNumber ((jsSplit s '-').get? 1)).map (fun v => v - 1) with
    | none => rfl
    | some b => rfl

/-- Witness for the amended C5 at the one-component key "abc". -/
theorem claim_C5_witness :
    (jsSplit "abc" '-').length < 3 ∧ parseISODate "abc" = none :=
  ⟨by decide, claim_C5_short_key_invalid "abc" (by decide)⟩

/-- Counterexample for C5 as stated: "2024-05-07-08" does not match the
three-numeric-component pattern, yet `parseISODate` silently coerces it to
the valid date 2024-05-07 (day number 19850) instead of failing. -/
theorem claim_C5_counterexample :
    matchesDateKeyPattern "2024-05-07-08" = false ∧
      parseISODate "2024-05-07-08" = some 19850 :=
  ⟨by decide, by decide⟩

-- ### Claim C4: zero active habits give rate 0 everywhere

/-- Claim C4: with no active habits every point of `rollupDaily`,
`rollupWeekly` and `rollupMonthly`, and the day summary, has `rate = 0`
(the zero denominator is guarded, never a division error or NaN). -/
theorem claim_C4_zero_active_rates (habits : List Habit) (L : Log)
    (startISO endISO : String) (weeksBack : Nat) (weekStartsOn : Int)
    (monthsBack : Nat) (today : Int) (dateISO : String)
    (h : getActiveHabits habits = []) :
    (∀ p ∈ rollupDaily habits L startISO endISO, p.rate = 0) ∧
      (∀ p ∈ rollupWeekly habits L weeksBack weekStartsOn today, p.rate = 0) ∧
      (∀ p ∈ rollupMonthly habits L monthsBack today, p.rate = 0) ∧
      (getTodaySummary habits L dateISO).rate = 0 := by
  refine ⟨?_, ?_, ?_, ?_⟩
  · intro p hp
    simp only [rollupDaily, h] at hp
    rw [List.mem_map] at hp
    obtain ⟨iso, -, hpe⟩ := hp
    rw [← hpe]
    rfl
  · intro p hp
    simp only [rollupWeekly, h] at hp
    rw [List.mem_map] at hp
    obtain ⟨i, -, hpe⟩ := hp
    rw [← hpe]
    rfl
  · intro p hp
    simp only [rollupMonthly, h] at hp
    rw [List.mem_map] at hp
    obtain ⟨i, -, hpe⟩ := hp
    rw [← hpe]
    simp
  · simp only [getTodaySummary, h]
    rfl

/-- A concrete inactive habit used to witness C4. -/
def inactiveSample : Habit :=
  { id := "a", name := "water", targetPerWeek := 5, active := false,
    createdAtISO := "2024-01-01", notes := "" }

/-- Witness for C4: one inactive habit, a non-trivial log and window. -/
theorem claim_C4_witness :
    getActiveHabits [inactiveSample] = [] ∧
      ((∀ p ∈ rollupDaily [inactiveSample] [("2024-05-01", ["a"])]
          "2024-05-01" "2024-05-03", p.rate = 0) ∧
        (∀ p ∈ rollupWeekly [inactiveSample] [("2024-05-01", ["a"])] 2 1 20000,
          p.rate = 0) ∧
        (∀ p ∈ rollupMonthly [inactiveSample] [("2024-05-01", ["a"])] 2 20000,
          p.rate = 0) ∧
        (getTodaySummary [inactiveSample] [("2024-05-01", ["a"])]
          "2024-05-01").rate = 0) :=
  ⟨rfl, claim_C4_zero_active_rates _ _ "2024-05-01" "2024-05-03" 2 1 2 20000 "2024-05-01" rfl⟩

-- ### Claim C10: the streak cap

/-- `takeWhile` never yields more elements than its input. -/
theorem takeWhile_length_le {α : Type} (p : α → Bool) (l : List α) :
    (l.takeWhile p).length ≤ l.length := by
  induction l with
  | nil => simp
  | cons a l ih =>
    rw [List.takeWhile_cons]
    by_cases h : p a = true
    · rw [if_pos h]
      simpa using ih
    · rw [if_neg h]
      simp

/-- With a representable `today`, `computeStreak` is the length of the run of
completed days scanning backwards from today. -/
theorem computeStreak_eval (habitId : HabitId) (L : Log) (today : Int)
    (h1 : -683003 ≤ today) (h2 : today ≤ 97000000) :
    computeStreak habitId L today =
      ((List.range 3650).takeWhile
        (fun (i : Nat) => isCompleted L (toISODate (today - (i : Int))) habitId)).length := by
  simp only [computeStreak, parse_toISODate today h1 h2, addDays_eq]
  congr 2

/-- Claim C10: a streak is never reported above the 3650-day scan window, and
the cap is attained: if every one of the 3650 scanned days is completed the
function returns exactly 3650 (`today` within the representable date range). -/
theorem claim_C10_computeStreak_cap (habitId : HabitId) (L : Log) (today : Int)
    (h1 : -683003 ≤ today) (h2 : today ≤ 97000000) :
    computeStreak habitId L today ≤ 3650 ∧
      ((∀ i : Nat, i < 3650 →
          isCompleted L (toISODate (today - (i : Int))) habitId = true) →
        computeStreak habitId L today = 3650) := by
  rw [computeStreak_eval habitId L today h1 h2]
  constructor
  · have hs := takeWhile_length_le
      (fun i : Nat => isCompleted L (toISODate (today - (i : Int))) habitId)
      (List.range 3650)
    rw [List.length_range] at hs
    exact hs
  · intro hall
    have heq : (List.range 3650).takeWhile
        (fun (i : Nat) => isCompleted L (toISODate (today - (i : Int))) habitId) =
          List.range 3650 := by
      rw [List.takeWhile_eq_self_iff]
      intro x hx
      exact hall x (List.mem_range.mp hx)
    rw [heq, List.length_range]

/-- A log marking 3650 consecutive days (backwards from day 20000) for "a",
used to witness that the streak cap is attained. -/
def rangeLogSample : Log :=
  (List.range 3650).map (fun (j : Nat) => (toISODate (20000 - (j : Int)), ["a"]))

/-- In a log whose entries all carry the same day value, any present key looks
up to that value. -/
theorem lookupDay_const (L : Log) (v : Day) (k : DateKey)
    (hall : ∀ p ∈ L, p.2 = v) (hk : ∃ p ∈ L, p.1 = k) :
    lookupDay L k = some v := by
  induction L with
  | nil =>
    obtain ⟨p, hp, -⟩ := hk
    simp at hp
  | cons q rest ih =>
    show (if q.1 = k then some q.2 else lookupDay rest k) = some v
    by_cases hq : q.1 = k
    · rw [if_pos hq, hall q (List.mem_cons_self _ _)]
    · rw [if_neg hq]
      refine ih (fun p hp => hall p (List.mem_cons_of_mem _ hp)) ?_
      obtain ⟨p, hp, hpk⟩ := hk
      rcases List.mem_cons.mp hp with h1 | h2
      · rw [h1] at hpk
        exact absurd hpk hq
      · exact ⟨p, h2, hpk⟩

set_option maxRecDepth 4000 in
/-- Every day scanned back from day 20000 is completed in `rangeLogSample`. -/
theorem isCompleted_rangeLog (i : Nat) (hi : i < 3650) :
    isCompleted rangeLogSample (toISODate (20000 - (i : Int))) "a" = true := by
  have hl : lookupDay rangeLogSample (toISODate (20000 - (i : Int))) = some ["a"] := by
    apply lookupDay_const
    · intro p hp
      rw [rangeLogSample, List.mem_map] at hp
      obtain ⟨j, -, hpe⟩ := hp
      rw [← hpe]
    · refine ⟨(toISODate (20000 - (i : Int)), ["a"]), ?_, rfl⟩
      rw [rangeLogSample, List.mem_map]
      exact ⟨i, List.mem_range.mpr hi, rfl⟩
  rw [isCompleted, hl]
  rfl

/-- Witness for C10: on the 3650-day log the streak is within the cap and
equals exactly 3650. -/
theorem claim_C10_witness :
    computeStreak "a" rangeLogSample 20000 ≤ 3650 ∧
      computeStreak "a" rangeLogSample 20000 = 3650 := by
  have h := claim_C10_computeStreak_cap "a" rangeLogSample 20000 (by decide) (by decide)
  exact ⟨h.1, h.2 (fun i hi => isCompleted_rangeLog i hi)⟩

-- ### Claim C6: the shape of the weekly rollup

/-- `startOfWeek` subtracts the (mod-7) day-of-week offset. -/
theorem startOfWeek_eq (z w : Int) :
    startOfWeek z w = z - ((z + 4) % 7 - w + 7) % 7 := by
  simp only [startOfWeek, jsSetDate, jsGetDate, jsGetDay]
  have h1 := civilToDays_daysToCivil z
  have h2 := civilToDays_day_linear (daysToCivil z).1 (daysToCivil z).2.1
    (daysToCivil z).2.2 (-(((z + 4) % 7 - w + 7) % 7))
  have h3 : (daysToCivil z).2.2 - ((z + 4) % 7 - w + 7) % 7
      = (daysToCivil z).2.2 + -(((z + 4) % 7 - w + 7) % 7) := by ring
  rw [h3, h2, h1]
  ring

/-- The start of the week containing `z` lies within the previous six days. -/
theorem startOfWeek_bounds (z w : Int) :
    z - 6 ≤ startOfWeek z w ∧ startOfWeek z w ≤ z := by
  rw [startOfWeek_eq]
  omega

/-- Indexing a map over a reversed `List.range`. -/
theorem get_reverse_range_map {α : Type} (f : Nat → α) (n j : Nat) (hj : j < n) :
    (((List.range n).reverse).map f).get? j = some (f (n - 1 - j)) := by
  induction n generalizing j with
  | zero => omega
  | succ n ih =>
    rw [List.range_succ, List.reverse_append]
    cases j with
    | zero => simp
    | succ k =>
      have hk : k < n := by omega
      simp only [List.reverse_singleton, List.singleton_append, List.map_cons,
        List.get?_cons_succ]
      rw [ih k hk]
      have he : n - 1 - k = n + 1 - 1 - (k + 1) := by omega
      rw [he]

/-- Claim C6: `rollupWeekly` returns exactly `weeksBack` points ordered oldest
first; the `j`-th point's week start is `startOfWeek(today)` minus
`7*(weeksBack-1-j)` days (so the last is the current week and consecutive
points step by exactly 7 days), its `totalPossible` is `active * 7`, and the
day range it scans is exactly the 7 consecutive days from its week start. -/
theorem claim_C6_rollupWeekly_shape (habits : List Habit) (L : Log)
    (weeksBack : Nat) (weekStartsOn today : Int)
    (hwb : 1 ≤ weeksBack) (hwb2 : weeksBack ≤ 10000)
    (hws : weekStartsOn = 0 ∨ weekStartsOn = 1)
    (ht1 : -600000 ≤ today) (ht2 : today ≤ 96000000) :
    (rollupWeekly habits L weeksBack weekStartsOn today).length = weeksBack ∧
      ∀ j : Nat, j < weeksBack →
        ∃ p : WeeklyPoint,
          (rollupWeekly habits L weeksBack weekStartsOn today).get? j = some p ∧
          p.weekStartISO = toISODate (startOfWeek today weekStartsOn
            - 7 * ((weeksBack : Int) - 1 - (j : Int))) ∧
          p.totalPossible = (getActiveHabits habits).length * 7 ∧
          dateRangeInclusive p.weekStartISO
              (toISODate (startOfWeek today weekStartsOn
                - 7 * ((weeksBack : Int) - 1 - (j : Int)) + 6)) =
            (intRange (startOfWeek today weekStartsOn
                - 7 * ((weeksBack : Int) - 1 - (j : Int)))
              (startOfWeek today weekStartsOn
                - 7 * ((weeksBack : Int) - 1 - (j : Int)) + 6)).map toISODate ∧
          (dateRangeInclusive p.weekStartISO
              (toISODate (startOfWeek today weekStartsOn
                - 7 * ((weeksBack : Int) - 1 - (j : Int)) + 6))).length = 7 := by
  have hWb := startOfWeek_bounds today weekStartsOn
  constructor
  · simp [rollupWeekly]
  · intro j hj
    simp only [rollupWeekly]
    refine ⟨_, get_reverse_range_map _ weeksBack j hj, ?_⟩
    have hc : (↑(weeksBack - 1 - j) : Int) = (weeksBack : Int) - 1 - (j : Int) := by omega
    simp only [addDays_eq, hc]
    have hsub : startOfWeek today weekStartsOn + -(7 * ((weeksBack : Int) - 1 - (j : Int)))
        = startOfWeek today weekStartsOn - 7 * ((weeksBack : Int) - 1 - (j : Int)) := by
      ring
    rw [hsub]
    have hb1 : -683003 ≤ startOfWeek today weekStartsOn
        - 7 * ((weeksBack : Int) - 1 - (j : Int)) := by omega
    have hb2 : startOfWeek today weekStartsOn
        - 7 * ((weeksBack : Int) - 1 - (j : Int)) ≤ 97000000 := by omega
    have hb3 : -683003 ≤ startOfWeek today weekStartsOn
        - 7 * ((weeksBack : Int) - 1 - (j : Int)) + 6 := by omega
    have hb4 : startOfWeek today weekStartsOn
        - 7 * ((weeksBack : Int) - 1 - (j : Int)) + 6 ≤ 97000000 := by omega
    have hp1 := parse_toISODate _ hb1 hb2
    have hp2 := parse_toISODate _ hb3 hb4
    refine ⟨by trivial, by trivial, ?_, ?_⟩
    · simp only [dateRangeInclusive, hp1, hp2]
      rw [dateRangeGo_eq_map]
    · simp only [dateRangeInclusive, hp1, hp2]
      rw [dateRangeGo_eq_map, List.length_map, intRange_len]
      omega

/-- Witness for C6 at one week back from day 20000 with no habits. -/
theorem claim_C6_witness :
    (rollupWeekly [] [] 1 1 20000).length = 1 ∧
      ∀ j : Nat, j < 1 →
        ∃ p : WeeklyPoint,
          (rollupWeekly [] [] 1 1 20000).get? j = some p ∧
          p.weekStartISO = toISODate (startOfWeek 20000 1
            - 7 * (((1 : Nat) : Int) - 1 - (j : Int))) ∧
          p.totalPossible = (getActiveHabits []).length * 7 ∧
          dateRangeInclusive p.weekStartISO
              (toISODate (startOfWeek 20000 1
                - 7 * (((1 : Nat) : Int) - 1 - (j : Int)) + 6)) =
            (intRange (startOfWeek 20000 1
                - 7 * (((1 : Nat) : Int) - 1 - (j : Int)))
              (startOfWeek 20000 1
                - 7 * (((1 : Nat) : Int) - 1 - (j : Int)) + 6)).map toISODate ∧
          (dateRangeInclusive p.weekStartISO
              (toISODate (startOfWeek 20000 1
                - 7 * (((1 : Nat) : Int) - 1 - (j : Int)) + 6))).length = 7 :=
  claim_C6_rollupWeekly_shape [] [] 1 1 20000 (by decide) (by decide) (Or.inr rfl)
    (by decide) (by decide)

-- ### Claim C7: the monthly rollup's day counts

/-- Reference month length: the actual number of calendar days of month `M`
of year `y` in the proleptic Gregorian calendar. -/
def daysInMonthA (y M : Int) : Int :=
  if M = 2 then (if y % 4 = 0 ∧ (y % 100 ≠ 0 ∨ y % 400 = 0) then 29 else 28)
  else if M = 4 ∨ M = 6 ∨ M = 9 ∨ M = 11 then 30 else 31

theorem daysInMonthA_bounds (y M : Int) :
    28 ≤ daysInMonthA y M ∧ daysInMonthA y M ≤ 31 := by
  simp only [daysInMonthA]
  split_ifs <;> omega

/-- The gap between the first days of consecutive months is the month
length, with the month step written the way `jsSetMonth` normalises it. -/
theorem month_length (Y M : Int) (h1 : 1 ≤ M) (h2 : M ≤ 12) :
    civilToDays (Y + M / 12) (M % 12 + 1) 1 - civilToDays Y M 1
      = daysInMonthA Y M := by
  simp only [civilToDays, daysInMonthA, yoeStart]
  interval_cases M <;> split_ifs <;> omega

/-- Year bounds of a day number in the window used by the monthly rollup. -/
theorem daysToCivil_year_mid (z : Int) (hlo : -400000 ≤ z) (hhi : z ≤ 50000000) :
    800 ≤ (daysToCivil z).1 ∧ (daysToCivil z).1 ≤ 139200 := by
  rcases h : daysToCivil z with ⟨y, m, d⟩
  simp only [daysToCivil, Prod.mk.injEq] at h
  obtain ⟨hy, hm, hd⟩ := h
  have hdoe0 : 0 ≤ (z + 719468) % 146097 := by omega
  have hdoe1 : (z + 719468) % 146097 ≤ 146096 := by omega
  have hrel : z + 719468
      = (z + 719468) / 146097 * 146097 + (z + 719468) % 146097 := by omega
  have hera0 : 2 ≤ (z + 719468) / 146097 := by omega
  have hera1 : (z + 719468) / 146097 ≤ 347 := by omega
  have hyoe := doeToYoe_spec ((z + 719468) % 146097) hdoe0 hdoe1
  have hmp := mp_to_month ((z + 719468) % 146097 - yoeStart (doeToYoe ((z + 719468) % 146097)))
    (by omega) (by omega)
  set doe := (z + 719468) % 146097 with hdoeDef
  set era := (z + 719468) / 146097 with heraDef
  set yoe := doeToYoe doe with hyoeDef
  set doy := doe - yoeStart yoe with hdoyDef
  set mp := (5 * doy + 2) / 153 with hmpDef
  clear_value mp doy yoe era doe
  show 800 ≤ y ∧ y ≤ 139200
  simp only [yoeStart] at *
  split_ifs at hy hm <;> omega

/-- Day-number bounds of the first of a month over the years the monthly
rollup can reach. -/
theorem civilToDays_bounds (Y M : Int) (h1 : 1 ≤ M) (h2 : M ≤ 12)
    (hY1 : 700 ≤ Y) (hY2 : Y ≤ 139201) :
    -683003 ≤ civilToDays Y M 1 ∧ civilToDays Y M 1 ≤ 97000000 := by
  simp only [civilToDays, yoeStart]
  split_ifs <;> omega

/-- Claim C7: every point of `rollupMonthly` carries `daysInMonth` equal to
the actual calendar length of its month (28-31, obtained as the gap to the
first day of the following month) and `totalPossible` equal to the number of
active habits times that length. -/
theorem claim_C7_rollupMonthly_daysInMonth (habits : List Habit) (L : Log)
    (monthsBack : Nat) (today : Int)
    (hmb1 : 1 ≤ monthsBack) (hmb : monthsBack ≤ 1200)
    (ht1 : -400000 ≤ today) (ht2 : today ≤ 50000000) :
    ∀ p ∈ rollupMonthly habits L monthsBack today, ∃ Y M : Int,
      1 ≤ M ∧ M ≤ 12 ∧
      p.monthISO = toISODate (civilToDays Y M 1) ∧
      (p.daysInMonth : Int) = daysInMonthA Y M ∧
      28 ≤ (p.daysInMonth : Int) ∧ (p.daysInMonth : Int) ≤ 31 ∧
      p.totalPossible = (getActiveHabits habits).length * p.daysInMonth := by
  intro p hp
  simp only [rollupMonthly] at hp
  rw [List.mem_map] at hp
  obtain ⟨i, hi, hpe⟩ := hp
  rw [List.mem_reverse, List.mem_range] at hi
  have hmd := daysToCivil_md_bounds today
  have hyr := daysToCivil_year_mid today ht1 ht2
  have hdcCur : daysToCivil (startOfMonth today)
      = ((daysToCivil today).1, (daysToCivil today).2.1, 1) :=
    daysToCivil_civilToDays_d1 _ _ hmd.1 hmd.2.1
  set Y0 := (daysToCivil today).1 with hY0def
  set M0 := (daysToCivil today).2.1 with hM0def
  set Yi := Y0 + (M0 - 1 - (i : Int)) / 12 with hYidef
  set Mi := (M0 - 1 - (i : Int)) % 12 + 1 with hMidef
  have hMi1 : 1 ≤ Mi := by omega
  have hMi2 : Mi ≤ 12 := by omega
  have hYi1 : 700 ≤ Yi := by omega
  have hYi2 : Yi ≤ 139200 := by omega
  have hdcZi := daysToCivil_civilToDays_d1 Yi Mi hMi1 hMi2
  have hmStart : jsSetDate (jsSetMonth (startOfMonth today)
      (jsGetMonth0 (startOfMonth today) - (i : Int))) 1 = civilToDays Yi Mi 1 := by
    simp only [jsSetMonth, jsGetMonth0, jsSetDate, hdcCur]
    rw [← hYidef, ← hMidef, hdcZi]
  have hnext : jsSetMonth (civilToDays Yi Mi 1) (jsGetMonth0 (civilToDays Yi Mi 1) + 1)
      = civilToDays (Yi + Mi / 12) (Mi % 12 + 1) 1 := by
    simp only [jsSetMonth, jsGetMonth0, hdcZi]
    have h11 : Mi - 1 + 1 = Mi := by ring
    rw [h11]
  have hml := month_length Yi Mi hMi1 hMi2
  have hdb := daysInMonthA_bounds Yi Mi
  have hbA := civilToDays_bounds Yi Mi hMi1 hMi2 (by omega) (by omega)
  have hbN := civilToDays_bounds (Yi + Mi / 12) (Mi % 12 + 1) (by omega) (by omega)
    (by omega) (by omega)
  have hp1 := parse_toISODate (civilToDays Yi Mi 1) (by omega) (by omega)
  have hp2 := parse_toISODate (civilToDays (Yi + Mi / 12) (Mi % 12 + 1) 1 - 1)
    (by omega) (by omega)
  have hm1 : civilToDays (Yi + Mi / 12) (Mi % 12 + 1) 1 + -1
      = civilToDays (Yi + Mi / 12) (Mi % 12 + 1) 1 - 1 := by ring
  rw [← hpe]
  refine ⟨Yi, Mi, hMi1, hMi2, ?_, ?_, ?_, ?_, ?_⟩
  · simp only [hmStart]
  · simp only [hmStart, hnext, addDays_eq, hm1]
    simp only [dateRangeInclusive, hp1, hp2]
    rw [dateRangeGo_eq_map, List.length_map, intRange_len]
    omega
  · simp only [hmStart, hnext, addDays_eq, hm1]
    simp only [dateRangeInclusive, hp1, hp2]
    rw [dateRangeGo_eq_map, List.length_map, intRange_len]
    omega
  · simp only [hmStart, hnext, addDays_eq, hm1]
    simp only [dateRangeInclusive, hp1, hp2]
    rw [dateRangeGo_eq_map, List.length_map, intRange_len]
    omega
  · rfl

/-- Witness for C7 one month back from day 20000 with no habits. -/
theorem claim_C7_witness :
    1 ≤ (1 : Nat) ∧ ∀ p ∈ rollupMonthly [] [] 1 20000, ∃ Y M : Int,
      1 ≤ M ∧ M ≤ 12 ∧
      p.monthISO = toISODate (civilToDays Y M 1) ∧
      (p.daysInMonth : Int) = daysInMonthA Y M ∧
      28 ≤ (p.daysInMonth : Int) ∧ (p.daysInMonth : Int) ≤ 31 ∧
      p.totalPossible = (getActiveHabits []).length * p.daysInMonth :=
  ⟨le_refl 1, claim_C7_rollupMonthly_daysInMonth [] [] 1 20000 (by decide) (by decide)
    (by decide) (by decide)⟩

-- ### Claim C8: computeBestStreak.  Calendar order facts.

/-- `doeToYoe` finds the exact year of era: the day lies before the next
year's start (needed to cap February's length in non-leap years). -/
theorem doeToYoe_sharp (doe : Int) (h0 : 0 ≤ doe) :
    doeToYoe doe ≤ 398 → doe < yoeStart (doeToYoe doe + 1) := by
  simp only [doeToYoe, yoeStart]
  split_ifs <;> omega

/-- `yoeStart` is monotone. -/
theorem yoeStart_mono (a b : Int) (hab : a ≤ b) : yoeStart a ≤ yoeStart b := by
  simp only [yoeStart]
  omega

/-- A 366-day year of era is followed by a leap year. -/
theorem yoeStart_gap366 (t : Int)
    (hgap : 366 ≤ yoeStart (t + 1) - yoeStart t) :
    (t + 1) % 4 = 0 ∧ (t + 1) % 100 ≠ 0 := by
  simp only [yoeStart] at hgap
  omega

/-- The day field of `daysToCivil` never exceeds the month's actual length. -/
theorem daysToCivil_day_le (z : Int) :
    (daysToCivil z).2.2 ≤ daysInMonthA (daysToCivil z).1 (daysToCivil z).2.1 := by
  rcases h : daysToCivil z with ⟨y, m, d⟩
  simp only [daysToCivil, Prod.mk.injEq] at h
  obtain ⟨hy, hm, hd⟩ := h
  have hdoe0 : 0 ≤ (z + 719468) % 146097 := by omega
  have hdoe1 : (z + 719468) % 146097 ≤ 146096 := by omega
  have hyoe := doeToYoe_spec ((z + 719468) % 146097) hdoe0 hdoe1
  have hsharp := doeToYoe_sharp ((z + 719468) % 146097) hdoe0
  have hmp := mp_to_month ((z + 719468) % 146097 - yoeStart (doeToYoe ((z + 719468) % 146097)))
    (by omega) (by omega)
  set doe := (z + 719468) % 146097 with hdoeDef
  set yoe := doeToYoe doe with hyoeDef
  set doy := doe - yoeStart yoe with hdoyDef
  set mp := (5 * doy + 2) / 153 with hmpDef
  clear_value mp doy yoe doe
  show d ≤ daysInMonthA y m
  simp only [daysInMonthA]
  rcases le_or_lt yoe 398 with h398 | h398
  · have hs := hsharp h398
    have hkey : doy ≤ 364 ∨ ((yoe + 1) % 4 = 0 ∧ (yoe + 1) % 100 ≠ 0) := by
      rcases le_or_lt doy 364 with hc | hc
      · exact Or.inl hc
      · exact Or.inr (yoeStart_gap366 yoe (by omega))
    split_ifs at hy hm ⊢ <;> omega
  · have hy399 : yoe = 399 := by omega
    subst hy399
    simp only [yoeStart] at hdoyDef hyoe
    split_ifs at hy hm ⊢ <;> omega

/-- The exact year of era is monotone in the day of era, with the day of
year breaking ties. -/
theorem doeToYoe_lex (a b : Int) (h0 : 0 ≤ a) (h1 : b ≤ 146096) (hab : a < b) :
    doeToYoe a < doeToYoe b ∨ (doeToYoe a = doeToYoe b ∧
      a - yoeStart (doeToYoe a) < b - yoeStart (doeToYoe b)) := by
  have hA := doeToYoe_spec a h0 (by omega)
  have hB := doeToYoe_spec b (by omega) h1
  have hsB := doeToYoe_sharp b (by omega)
  set u := doeToYoe a with hu
  set v := doeToYoe b with hv
  clear_value u v
  rcases lt_trichotomy u v with hc | hc | hc
  · exact Or.inl hc
  · right
    refine ⟨hc, ?_⟩
    rw [hc]
    omega
  · exfalso
    have hm1 : yoeStart (v + 1) ≤ yoeStart u := yoeStart_mono (v + 1) u (by omega)
    have hs := hsB (by omega)
    omega

/-- Within a year, the month pattern index is monotone in the day of year,
with the day of month breaking ties. -/
theorem mp_lex (x w : Int) (h0 : 0 ≤ x) (h1 : w ≤ 365) (h : x < w) :
    (5 * x + 2) / 153 < (5 * w + 2) / 153 ∨ ((5 * x + 2) / 153 = (5 * w + 2) / 153 ∧
      x - (153 * ((5 * x + 2) / 153) + 2) / 5 < w - (153 * ((5 * w + 2) / 153) + 2) / 5) := by
  omega

/-- A smaller day number has the lexicographically smaller civil date. -/
theorem daysToCivil_lex_lt (z z2 : Int) (h : z < z2) :
    (daysToCivil z).1 < (daysToCivil z2).1 ∨
      ((daysToCivil z).1 = (daysToCivil z2).1 ∧
        ((daysToCivil z).2.1 < (daysToCivil z2).2.1 ∨
          ((daysToCivil z).2.1 = (daysToCivil z2).2.1 ∧
            (daysToCivil z).2.2 < (daysToCivil z2).2.2))) := by
  rcases h1 : daysToCivil z with ⟨y, m, d⟩
  rcases h2 : daysToCivil z2 with ⟨yB, mB, dB⟩
  simp only [daysToCivil, Prod.mk.injEq] at h1 h2
  obtain ⟨hy, hm, hd⟩ := h1
  obtain ⟨hyB, hmB, hdB⟩ := h2
  have hdoe0 : 0 ≤ (z + 719468) % 146097 := by omega
  have hdoe1 : (z + 719468) % 146097 ≤ 146096 := by omega
  have hdoe0B : 0 ≤ (z2 + 719468) % 146097 := by omega
  have hdoe1B : (z2 + 719468) % 146097 ≤ 146096 := by omega
  have hrelA : z + 719468
      = (z + 719468) / 146097 * 146097 + (z + 719468) % 146097 := by omega
  have hrelB : z2 + 719468
      = (z2 + 719468) / 146097 * 146097 + (z2 + 719468) % 146097 := by omega
  have hyoeA := doeToYoe_spec ((z + 719468) % 146097) hdoe0 hdoe1
  have hyoeB := doeToYoe_spec ((z2 + 719468) % 146097) hdoe0B hdoe1B
  have hmpA := mp_to_month ((z + 719468) % 146097 - yoeStart (doeToYoe ((z + 719468) % 146097)))
    (by omega) (by omega)
  have hmpB := mp_to_month ((z2 + 719468) % 146097 - yoeStart (doeToYoe ((z2 + 719468) % 146097)))
    (by omega) (by omega)
  set doe := (z + 719468) % 146097 with hdoeDef
  set era := (z + 719468) / 146097 with heraDef
  set yoe := doeToYoe doe with hyoeDef
  set doy := doe - yoeStart yoe with hdoyDef
  set mp := (5 * doy + 2) / 153 with hmpDef
  set doeB := (z2 + 719468) % 146097 with hdoeDefB
  set eraB := (z2 + 719468) / 146097 with heraDefB
  set yoeB := doeToYoe doeB with hyoeDefB
  set doyB := doeB - yoeStart yoeB with hdoyDefB
  set mpB := (5 * doyB + 2) / 153 with hmpDefB
  clear_value mp doy yoe era doe mpB doyB yoeB eraB doeB
  rw [hm] at hy
  rw [hmB] at hyB
  show y < yB ∨ (y = yB ∧ (m < mB ∨ (m = mB ∧ d < dB)))
  have heraLex : era < eraB ∨ (era = eraB ∧ doe < doeB) := by omega
  rcases heraLex with hE | ⟨hEeq, hDlt⟩
  · split_ifs at hy hm hyB hmB <;> omega
  · have hYL := doeToYoe_lex doe doeB hdoe0 hdoe1B hDlt
    rw [← hyoeDef, ← hyoeDefB, ← hdoyDef, ← hdoyDefB] at hYL
    rcases hYL with hYlt | ⟨hYeq, hDoyLt⟩
    · split_ifs at hy hm hyB hmB <;> omega
    · have hML := mp_lex doy doyB (by omega) (by omega) hDoyLt
      rw [← hmpDef, ← hmpDefB] at hML
      rcases hML with hMlt | ⟨hMeq, hdlt⟩
      · split_ifs at hy hm hyB hmB <;> omega
      · split_ifs at hy hm hyB hmB <;> omega

/-- Day numbers of the four-digit years: a day in [-354285, 2932896] has its
civil year in [1000, 9999]. -/
theorem daysToCivil_year4 (z : Int) (hlo : -354285 ≤ z) (hhi : z ≤ 2932896) :
    1000 ≤ (daysToCivil z).1 ∧ (daysToCivil z).1 ≤ 9999 := by
  rcases h : daysToCivil z with ⟨y, m, d⟩
  simp only [daysToCivil, Prod.mk.injEq] at h
  obtain ⟨hy, hm, hd⟩ := h
  have hdoe0 : 0 ≤ (z + 719468) % 146097 := by omega
  have hdoe1 : (z + 719468) % 146097 ≤ 146096 := by omega
  have hrel : z + 719468
      = (z + 719468) / 146097 * 146097 + (z + 719468) % 146097 := by omega
  have hera0 : 2 ≤ (z + 719468) / 146097 := by omega
  have hera1 : (z + 719468) / 146097 ≤ 24 := by omega
  have hyoe := doeToYoe_spec ((z + 719468) % 146097) hdoe0 hdoe1
  have hmp := mp_to_month ((z + 719468) % 146097 - yoeStart (doeToYoe ((z + 719468) % 146097)))
    (by omega) (by omega)
  set doe := (z + 719468) % 146097 with hdoeDef
  set era := (z + 719468) / 146097 with heraDef
  set yoe := doeToYoe doe with hyoeDef
  set doy := doe - yoeStart yoe with hdoyDef
  set mp := (5 * doy + 2) / 153 with hmpDef
  clear_value mp doy yoe era doe
  show 1000 ≤ y ∧ y ≤ 9999
  simp only [yoeStart] at *
  split_ifs at hy hm <;> omega

-- ### Digit strings and their lexicographic order

theorem natDigitsAux_congr : ∀ fuel fuel2 n : Nat, n ≤ fuel → n ≤ fuel2 →
    natDigitsAux fuel n = natDigitsAux fuel2 n := by
  intro fuel
  induction fuel with
  | zero =>
    intro fuel2 n h1 h2
    have hn : n = 0 := by omega
    subst hn
    cases fuel2 with
    | zero => rfl
    | succ f => simp [natDigitsAux]
  | succ f ih =>
    intro fuel2 n h1 h2
    cases fuel2 with
    | zero =>
      have hn : n = 0 := by omega
      subst hn
      simp [natDigitsAux]
    | succ f2 =>
      show (if n < 10 then [digitChar n] else natDigitsAux f (n / 10) ++ [digitChar n])
          = (if n < 10 then [digitChar n] else natDigitsAux f2 (n / 10) ++ [digitChar n])
      by_cases hn : n < 10
      · rw [if_pos hn, if_pos hn]
      · rw [if_neg hn, if_neg hn, ih f2 (n / 10) (by omega) (by omega)]

theorem natDigits_step (n : Nat) (h : 10 ≤ n) :
    natDigits n = natDigits (n / 10) ++ [digitChar n] := by
  show natDigitsAux n n = natDigitsAux (n / 10) (n / 10) ++ [digitChar n]
  cases n with
  | zero => omega
  | succ m =>
    show (if m + 1 < 10 then [digitChar (m + 1)]
        else natDigitsAux m ((m + 1) / 10) ++ [digitChar (m + 1)]) = _
    rw [if_neg (by omega), natDigitsAux_congr m ((m + 1) / 10) ((m + 1) / 10)
      (by omega) (le_refl _)]

theorem natDigits_single (n : Nat) (h : n < 10) : natDigits n = [digitChar n] := by
  cases n with
  | zero => rfl
  | succ m =>
    show (if m + 1 < 10 then [digitChar (m + 1)]
        else natDigitsAux m ((m + 1) / 10) ++ [digitChar (m + 1)]) = _
    rw [if_pos h]

/-- The four decimal digits of a four-digit number. -/
theorem natDigits_eq4 (n : Nat) (h1 : 1000 ≤ n) (h2 : n ≤ 9999) :
    natDigits n
      = [digitChar (n / 1000), digitChar (n / 100), digitChar (n / 10), digitChar n] := by
  have e2 : n / 10 / 10 = n / 100 := by omega
  have e3 : n / 100 / 10 = n / 1000 := by omega
  rw [natDigits_step n (by omega), natDigits_step (n / 10) (by omega), e2,
    natDigits_step (n / 100) (by omega), e3, natDigits_single (n / 1000) (by omega)]
  rfl

/-- The two characters of `pad2`. -/
theorem pad2_toList (i : Int) (h0 : 0 ≤ i) (h1 : i ≤ 99) :
    (pad2 i).toList = [digitChar (i.toNat / 10), digitChar i.toNat] := by
  simp only [pad2]
  rw [jsIntToString_nonneg i h0]
  by_cases hlt : i < 10
  · have hsingle := natDigits_single i.toNat (by omega)
    have hlen : (String.mk (natDigits i.toNat)).length < 2 := by
      rw [hsingle]
      show (1 : Nat) < 2
      decide
    rw [if_pos hlen]
    have htl : ("0" ++ String.mk (natDigits i.toNat)).toList
        = '0' :: natDigits i.toNat := rfl
    rw [htl, hsingle]
    have hq : i.toNat / 10 = 0 := by omega
    rw [hq]
    rfl
  · have hsingle := natDigits_single (i.toNat / 10) (by omega)
    have htwo : natDigits i.toNat = [digitChar (i.toNat / 10), digitChar i.toNat] := by
      rw [natDigits_step i.toNat (by omega), hsingle]
      rfl
    have hlen : ¬ (String.mk (natDigits i.toNat)).length < 2 := by
      rw [htwo]
      show ¬ (2 : Nat) < 2
      decide
    rw [if_neg hlen, htwo]
    rfl

/-- The ten characters of a date key with a four-digit year. -/
theorem toISO_toList4 (z : Int) (hy1 : 1000 ≤ (daysToCivil z).1)
    (hy2 : (daysToCivil z).1 ≤ 9999) :
    (toISODate z).toList
      = [digitChar ((daysToCivil z).1.toNat / 1000), digitChar ((daysToCivil z).1.toNat / 100),
         digitChar ((daysToCivil z).1.toNat / 10), digitChar (daysToCivil z).1.toNat, '-',
         digitChar ((daysToCivil z).2.1.toNat / 10), digitChar (daysToCivil z).2.1.toNat, '-',
         digitChar ((daysToCivil z).2.2.toNat / 10), digitChar (daysToCivil z).2.2.toNat] := by
  have hmd := daysToCivil_md_bounds z
  unfold toISODate
  have htl : (jsIntToString (daysToCivil z).1 ++ "-" ++ pad2 (daysToCivil z).2.1
        ++ "-" ++ pad2 (daysToCivil z).2.2).toList
      = (jsIntToString (daysToCivil z).1).toList
        ++ '-' :: ((pad2 (daysToCivil z).2.1).toList
          ++ '-' :: (pad2 (daysToCivil z).2.2).toList) := by
    show ((((jsIntToString (daysToCivil z).1 ++ "-") ++ pad2 (daysToCivil z).2.1)
        ++ "-") ++ pad2 (daysToCivil z).2.2).data = _
    simp only [String.data_append]
    simp
  rw [htl]
  rw [jsIntToString_nonneg _ (by omega)]
  rw [show (String.mk (natDigits (daysToCivil z).1.toNat)).toList
      = natDigits (daysToCivil z).1.toNat from rfl]
  rw [natDigits_eq4 (daysToCivil z).1.toNat (by omega) (by omega)]
  rw [pad2_toList (daysToCivil z).2.1 (by omega) (by omega)]
  rw [pad2_toList (daysToCivil z).2.2 (by omega) (by omega)]
  rfl

theorem digitChar_mod (a : Nat) : digitChar a = digitChar (a % 10) := by
  unfold digitChar
  congr 1
  omega

theorem digitChar_lt_iff (a b : Nat) : digitChar a < digitChar b ↔ a % 10 < b % 10 := by
  rw [digitChar_mod a, digitChar_mod b]
  have ha : a % 10 < 10 := Nat.mod_lt _ (by omega)
  have hb : b % 10 < 10 := Nat.mod_lt _ (by omega)
  set x := a % 10 with hx
  set y := b % 10 with hyv
  clear_value x y
  interval_cases x <;> interval_cases y <;> decide

theorem digitChar_eq_iff (a b : Nat) : digitChar a = digitChar b ↔ a % 10 = b % 10 := by
  rw [digitChar_mod a, digitChar_mod b]
  have ha : a % 10 < 10 := Nat.mod_lt _ (by omega)
  have hb : b % 10 < 10 := Nat.mod_lt _ (by omega)
  set x := a % 10 with hx
  set y := b % 10 with hyv
  clear_value x y
  interval_cases x <;> interval_cases y <;> decide

theorem lex_append_same {α : Type} {r : α → α → Prop} (pre : List α) {l1 l2 : List α}
    (h : List.Lex r l1 l2) : List.Lex r (pre ++ l1) (pre ++ l2) := by
  induction pre with
  | nil => simpa
  | cons a t ih => exact List.Lex.cons ih

/-- `toISODate` is strictly monotone on days with four-digit years: the
ten-character keys compare lexicographically exactly as the day numbers. -/
theorem toISO_lt_of_lt {z z2 : Int} (hz1 : -354285 ≤ z) (hz2 : z ≤ 2932896)
    (hz1B : -354285 ≤ z2) (hz2B : z2 ≤ 2932896) (h : z < z2) :
    toISODate z < toISODate z2 := by
  have hy4 := daysToCivil_year4 z hz1 hz2
  have hy4B := daysToCivil_year4 z2 hz1B hz2B
  have hmd := daysToCivil_md_bounds z
  have hmdB := daysToCivil_md_bounds z2
  have hlex := daysToCivil_lex_lt z z2 h
  have htl := toISO_toList4 z hy4.1 hy4.2
  have htlB := toISO_toList4 z2 hy4B.1 hy4B.2
  rw [String.lt_iff_toList_lt, htl, htlB]
  show List.Lex (fun a b => a < b) _ _
  set Y1 := (daysToCivil z).1.toNat with hYd
  set M1 := (daysToCivil z).2.1.toNat with hMd
  set D1 := (daysToCivil z).2.2.toNat with hDd
  set Y2 := (daysToCivil z2).1.toNat with hYdB
  set M2 := (daysToCivil z2).2.1.toNat with hMdB
  set D2 := (daysToCivil z2).2.2.toNat with hDdB
  rcases hlex with hylt | ⟨hyeq, hmlt | ⟨hmeq, hdlt⟩⟩
  · have hdig : Y1 / 1000 % 10 < Y2 / 1000 % 10
        ∨ (Y1 / 1000 % 10 = Y2 / 1000 % 10 ∧ (Y1 / 100 % 10 < Y2 / 100 % 10
          ∨ (Y1 / 100 % 10 = Y2 / 100 % 10 ∧ (Y1 / 10 % 10 < Y2 / 10 % 10
            ∨ (Y1 / 10 % 10 = Y2 / 10 % 10 ∧ Y1 % 10 < Y2 % 10))))) := by
      have e1 : Y1 / 1000 % 10 = Y1 / 1000 := by omega
      have e1B : Y2 / 1000 % 10 = Y2 / 1000 := by omega
      have e2 : Y1 / 100 = 10 * (Y1 / 1000) + Y1 / 100 % 10 := by omega
      have e2B : Y2 / 100 = 10 * (Y2 / 1000) + Y2 / 100 % 10 := by omega
      have e3 : Y1 / 10 = 10 * (Y1 / 100) + Y1 / 10 % 10 := by omega
      have e3B : Y2 / 10 = 10 * (Y2 / 100) + Y2 / 10 % 10 := by omega
      have e4 : Y1 = 10 * (Y1 / 10) + Y1 % 10 := by omega
      have e4B : Y2 = 10 * (Y2 / 10) + Y2 % 10 := by omega
      omega
    rcases hdig with h1 | ⟨e1, h2 | ⟨e2, h3 | ⟨e3, h4⟩⟩⟩
    · exact List.Lex.rel ((digitChar_lt_iff _ _).mpr h1)
    · rw [(digitChar_eq_iff (Y1 / 1000) (Y2 / 1000)).mpr e1]
      exact List.Lex.cons (List.Lex.rel ((digitChar_lt_iff _ _).mpr h2))
    · rw [(digitChar_eq_iff (Y1 / 1000) (Y2 / 1000)).mpr e1,
        (digitChar_eq_iff (Y1 / 100) (Y2 / 100)).mpr e2]
      exact List.Lex.cons (List.Lex.cons (List.Lex.rel ((digitChar_lt_iff _ _).mpr h3)))
    · rw [(digitChar_eq_iff (Y1 / 1000) (Y2 / 1000)).mpr e1,
        (digitChar_eq_iff (Y1 / 100) (Y2 / 100)).mpr e2,
        (digitChar_eq_iff (Y1 / 10) (Y2 / 10)).mpr e3]
      exact List.Lex.cons (List.Lex.cons (List.Lex.cons
        (List.Lex.rel ((digitChar_lt_iff _ _).mpr h4))))
  · have hYn : Y2 = Y1 := by omega
    rw [hYn]
    have hdig : M1 / 10 % 10 < M2 / 10 % 10
        ∨ (M1 / 10 % 10 = M2 / 10 % 10 ∧ M1 % 10 < M2 % 10) := by
      have e1 : M1 / 10 % 10 = M1 / 10 := by omega
      have e1B : M2 / 10 % 10 = M2 / 10 := by omega
      have e2 : M1 = 10 * (M1 / 10) + M1 % 10 := by omega
      have e2B : M2 = 10 * (M2 / 10) + M2 % 10 := by omega
      omega
    have hsplit : ∀ mv dv : Nat,
        [digitChar (Y1 / 1000), digitChar (Y1 / 100), digitChar (Y1 / 10), digitChar Y1, '-',
          digitChar (mv / 10), digitChar mv, '-', digitChar (dv / 10), digitChar dv]
        = [digitChar (Y1 / 1000), digitChar (Y1 / 100), digitChar (Y1 / 10), digitChar Y1, '-']
          ++ [digitChar (mv / 10), digitChar mv, '-', digitChar (dv / 10), digitChar dv] :=
      fun mv dv => rfl
    rw [hsplit M1 D1, hsplit M2 D2]
    apply lex_append_same
    rcases hdig with h1 | ⟨e1, h2⟩
    · exact List.Lex.rel ((digitChar_lt_iff _ _).mpr h1)
    · rw [(digitChar_eq_iff (M1 / 10) (M2 / 10)).mpr e1]
      exact List.Lex.cons (List.Lex.rel ((digitChar_lt_iff _ _).mpr h2))
  · have hYn : Y2 = Y1 := by omega
    have hMn : M2 = M1 := by omega
    rw [hYn, hMn]
    have hdig : D1 / 10 % 10 < D2 / 10 % 10
        ∨ (D1 / 10 % 10 = D2 / 10 % 10 ∧ D1 % 10 < D2 % 10) := by
      have e1 : D1 / 10 % 10 = D1 / 10 := by omega
      have e1B : D2 / 10 % 10 = D2 / 10 := by omega
      have e2 : D1 = 10 * (D1 / 10) + D1 % 10 := by omega
      have e2B : D2 = 10 * (D2 / 10) + D2 % 10 := by omega
      omega
    have hsplit : ∀ dv : Nat,
        [digitChar (Y1 / 1000), digitChar (Y1 / 100), digitChar (Y1 / 10), digitChar Y1, '-',
          digitChar (M1 / 10), digitChar M1, '-', digitChar (dv / 10), digitChar dv]
        = [digitChar (Y1 / 1000), digitChar (Y1 / 100), digitChar (Y1 / 10), digitChar Y1, '-',
            digitChar (M1 / 10), digitChar M1, '-']
          ++ [digitChar (dv / 10), digitChar dv] :=
      fun dv => rfl
    rw [hsplit D1, hsplit D2]
    apply lex_append_same
    rcases hdig with h1 | ⟨e1, h2⟩
    · exact List.Lex.rel ((digitChar_lt_iff _ _).mpr h1)
    · rw [(digitChar_eq_iff (D1 / 10) (D2 / 10)).mpr e1]
      exact List.Lex.cons (List.Lex.rel ((digitChar_lt_iff _ _).mpr h2))

/-- On four-digit-year days the key order mirrors the day order. -/
theorem toISO_le_iff {z z2 : Int} (hz1 : -354285 ≤ z) (hz2 : z ≤ 2932896)
    (hz1B : -354285 ≤ z2) (hz2B : z2 ≤ 2932896) :
    toISODate z ≤ toISODate z2 ↔ z ≤ z2 := by
  constructor
  · intro hle
    by_contra hgt
    rw [not_le] at hgt
    exact absurd hle (not_le.mpr (toISO_lt_of_lt hz1B hz2B hz1 hz2 hgt))
  · intro hle
    rcases lt_or_eq_of_le hle with hlt | heq
    · exact le_of_lt (toISO_lt_of_lt hz1 hz2 hz1B hz2B hlt)
    · rw [heq]

/-- A four-digit-year key is never the empty string. -/
theorem toISO_isEmpty_false (z : Int) (hz1 : -354285 ≤ z) (hz2 : z ≤ 2932896) :
    (toISODate z).isEmpty = false := by
  have hy4 := daysToCivil_year4 z hz1 hz2
  have htl := toISO_toList4 z hy4.1 hy4.2
  rw [Bool.eq_false_iff]
  intro hT
  have he : toISODate z = "" := (String.isEmpty_iff _).mp hT
  rw [he] at htl
  exact List.noConfusion htl

/-- A completed date is a key of the log. -/
theorem isCompleted_mem_keys {L : Log} {d : DateKey} {hab : HabitId}
    (hc : isCompleted L d hab = true) : ∃ v, (d, v) ∈ L := by
  unfold isCompleted at hc
  cases hl : lookupDay L d with
  | none =>
    rw [hl] at hc
    simp at hc
  | some day => exact ⟨day, lookupDay_mem hl⟩

-- ### The integer model of the best-streak scan

/-- `bestStep` transported to day numbers: the state is `(best, cur, prev)`. -/
def bestStepZ (habitId : HabitId) (L : Log) (st : Nat × Nat × Option Int)
    (z : Int) : Nat × Nat × Option Int :=
  if isCompleted L (toISODate z) habitId then
    let cur := match st.2.2 with
      | none => 1
      | some p => if z = p + 1 then st.2.1 + 1 else 1
    (max st.1 cur, cur, some z)
  else st

/-- One scan step over a key mirrors the integer step. -/
theorem bestStep_transport (habitId : HabitId) (L : Log) (z : Int)
    (st : Nat × Nat × Option Int)
    (hp : ∀ p : Int, st.2.2 = some p → -354285 ≤ p ∧ p ≤ 2932896) :
    bestStep habitId L (st.1, st.2.1, st.2.2.map toISODate) (toISODate z)
      = ((bestStepZ habitId L st z).1, (bestStepZ habitId L st z).2.1,
         (bestStepZ habitId L st z).2.2.map toISODate) := by
  rcases st with ⟨best, cur, prev⟩
  by_cases hC : isCompleted L (toISODate z) habitId = true
  · cases prev with
    | none =>
      simp [bestStep, bestStepZ, hC, jsFalsyStr]
    | some p =>
      obtain ⟨hp1, hp2⟩ := hp p rfl
      have hfals : jsFalsyStr (some (toISODate p)) = false := by
        simp [jsFalsyStr, toISO_isEmpty_false p hp1 hp2]
      have hparse : parseISODate ((some (toISODate p)).getD "") = some p := by
        show parseISODate (toISODate p) = some p
        exact parse_toISODate p (by omega) (by omega)
      simp only [bestStep, bestStepZ, hC, if_true, Option.map_some']
      rw [hfals]
      simp only [Bool.false_eq_true, if_false, hparse, addDays_eq]
      by_cases hz : z = p + 1
      · rw [hz, if_pos rfl, if_pos rfl]
      · have hne : toISODate z ≠ toISODate (p + 1) := fun he =>
          hz (toISODate_inj_ranged (by omega) (by omega) he)
        rw [if_neg hne, if_neg hz]
  · have hC2 : isCompleted L (toISODate z) habitId = false := by
      rw [Bool.eq_false_iff]
      exact hC
    simp [bestStep, bestStepZ, hC2]

/-- The whole scan over keys mirrors the integer scan. -/
theorem foldl_transport (habitId : HabitId) (L : Log) :
    ∀ (ds : List Int), (∀ w ∈ ds, -354285 ≤ w ∧ w ≤ 2932896) →
      ∀ st : Nat × Nat × Option Int,
        (∀ p : Int, st.2.2 = some p → -354285 ≤ p ∧ p ≤ 2932896) →
        (ds.map toISODate).foldl (bestStep habitId L) (st.1, st.2.1, st.2.2.map toISODate)
          = ((ds.foldl (bestStepZ habitId L) st).1,
             (ds.foldl (bestStepZ habitId L) st).2.1,
             (ds.foldl (bestStepZ habitId L) st).2.2.map toISODate) := by
  intro ds
  induction ds with
  | nil =>
    intro hds st hp
    rfl
  | cons a t ih =>
    intro hds st hp
    have ha := hds a (List.mem_cons_self _ _)
    simp only [List.map_cons, List.foldl_cons]
    rw [bestStep_transport habitId L a st hp]
    apply ih (fun w hw => hds w (List.mem_cons_of_mem _ hw))
    intro p hpE
    by_cases hC : isCompleted L (toISODate a) habitId = true
    · simp only [bestStepZ, hC, if_true] at hpE
      have : a = p := by
        have := hpE
        simp at this
        exact this
      rw [← this]
      exact ha
    · have hC2 : isCompleted L (toISODate a) habitId = false := by
        rw [Bool.eq_false_iff]
        exact hC
      simp only [bestStepZ, hC2, Bool.false_eq_true, if_false] at hpE
      exact hp p hpE

/-- The loop invariant of the best-streak scan over a sorted prefix `pre`:
the `prev` component is the largest completed day seen, `cur` is the exact
length of the consecutive completed run ending there, every completed run
that ends inside the prefix is no longer than `best`, and `best` is realized
by some run. -/
def BestInv (hab : HabitId) (L : Log) (pre : List Int)
    (st : Nat × Nat × Option Int) : Prop :=
  ((st.2.2 = none ∧ st.1 = 0 ∧ st.2.1 = 0 ∧
      ∀ w ∈ pre, isCompleted L (toISODate w) hab = false)
    ∨ (∃ p : Int, st.2.2 = some p ∧ p ∈ pre ∧ isCompleted L (toISODate p) hab = true ∧
        (∀ w ∈ pre, isCompleted L (toISODate w) hab = true → w ≤ p) ∧
        1 ≤ st.2.1 ∧ st.2.1 ≤ st.1 ∧
        (∀ j : Nat, j < st.2.1 → isCompleted L (toISODate (p - (j : Int))) hab = true) ∧
        isCompleted L (toISODate (p - (st.2.1 : Int))) hab = false))
  ∧ (∃ s : Int, ∀ j : Nat, j < st.1 → isCompleted L (toISODate (s + (j : Int))) hab = true)
  ∧ (∀ (k : Nat) (s : Int), 1 ≤ k →
      (∀ j : Nat, j < k → isCompleted L (toISODate (s + (j : Int))) hab = true) →
      (s + (k : Int) - 1) ∈ pre → k ≤ st.1)

theorem bestInv_base (hab : HabitId) (L : Log) : BestInv hab L [] (0, 0, none) := by
  refine ⟨Or.inl ⟨rfl, rfl, rfl, by simp⟩, ⟨0, by omega⟩, ?_⟩
  intro k s hk hrun hend
  simp at hend

/-- One scan step preserves the invariant. -/
theorem bestInv_step (hab : HabitId) (L : Log) (ds pre suf : List Int) (a : Int)
    (hds : ds = pre ++ a :: suf)
    (hsorted : ds.Pairwise (fun x y => x < y))
    (hPd : ∀ w : Int, isCompleted L (toISODate w) hab = true → w ∈ ds)
    (st : Nat × Nat × Option Int)
    (hinv : BestInv hab L pre st) :
    BestInv hab L (pre ++ [a]) (bestStepZ hab L st a) := by
  subst hds
  rw [List.pairwise_append] at hsorted
  obtain ⟨hpreP, hsufP, hcross⟩ := hsorted
  rw [List.pairwise_cons] at hsufP
  obtain ⟨hsufgt, -⟩ := hsufP
  have hprelt : ∀ w ∈ pre, w < a := fun w hw => hcross w hw a (List.mem_cons_self _ _)
  have hmem_resolve : ∀ w : Int, isCompleted L (toISODate w) hab = true →
      w ≤ a → w = a ∨ w ∈ pre := by
    intro w hPw hwa
    have hm := hPd w hPw
    rw [List.mem_append, List.mem_cons] at hm
    rcases hm with h | h | h
    · exact Or.inr h
    · exact Or.inl h
    · exact absurd (hsufgt w h) (by omega)
  obtain ⟨hmain, hex, hub⟩ := hinv
  by_cases hC : isCompleted L (toISODate a) hab = true
  · rcases hmain with ⟨h1, h2, h3, h4⟩ | ⟨p, h1, h2, h3, h4, h5, h6, h7, h8⟩
    · -- no completed day seen yet; `a` starts a run of length 1
      have hstep : bestStepZ hab L st a = (max st.1 1, 1, some a) := by
        simp only [bestStepZ, h1]
        rw [if_pos hC]
      rw [hstep]
      have hPa1 : isCompleted L (toISODate (a - 1)) hab = false := by
        rw [Bool.eq_false_iff]
        intro hP
        rcases hmem_resolve (a - 1) hP (by omega) with h | h
        · omega
        · exact absurd hP (by simp [h4 _ h])
      have c1 : ∀ w ∈ pre ++ [a], isCompleted L (toISODate w) hab = true → w ≤ a := by
        intro w hw hPw
        rcases List.mem_append.mp hw with h | h
        · exact le_of_lt (hprelt w h)
        · rw [List.mem_singleton] at h
          omega
      have c2 : ∀ j : Nat, j < 1 → isCompleted L (toISODate (a - (j : Int))) hab = true := by
        intro j hj
        have hj0 : j = 0 := by omega
        subst hj0
        simpa using hC
      have c3 : isCompleted L (toISODate (a - ((1 : Nat) : Int))) hab = false := by
        have harg : a - ((1 : Nat) : Int) = a - 1 := by omega
        rw [harg]
        exact hPa1
      have c4 : ∃ s : Int, ∀ j : Nat, j < max st.1 1 →
          isCompleted L (toISODate (s + (j : Int))) hab = true := by
        refine ⟨a, ?_⟩
        intro j hj
        have hj0 : j = 0 := by omega
        subst hj0
        simpa using hC
      have c5 : ∀ (k : Nat) (s : Int), 1 ≤ k →
          (∀ j : Nat, j < k → isCompleted L (toISODate (s + (j : Int))) hab = true) →
          (s + (k : Int) - 1) ∈ pre ++ [a] → k ≤ max st.1 1 := by
        intro k s hk hrun hend
        rcases List.mem_append.mp hend with h | h
        · have := hub k s hk hrun h
          omega
        · rw [List.mem_singleton] at h
          by_contra hk2
          have hPe := hrun (k - 2) (by omega)
          have harg : s + ((k - 2 : Nat) : Int) = a - 1 := by omega
          rw [harg] at hPe
          rw [hPe] at hPa1
          exact absurd hPa1 (by decide)
      exact ⟨Or.inr ⟨a, rfl, List.mem_append_right _ (by simp), hC, c1,
        le_refl _, by show 1 ≤ max st.1 1; omega, c2, c3⟩, c4, c5⟩
    · -- a completed day `p` was seen last
      have hpa : p < a := hprelt p h2
      by_cases hz : a = p + 1
      · -- `a` extends the run ending at `p`
        have hstep : bestStepZ hab L st a
            = (max st.1 (st.2.1 + 1), st.2.1 + 1, some a) := by
          simp only [bestStepZ, h1]
          rw [if_pos hC, if_pos hz]
        rw [hstep]
        have c1 : ∀ w ∈ pre ++ [a], isCompleted L (toISODate w) hab = true → w ≤ a := by
          intro w hw hPw
          rcases List.mem_append.mp hw with h | h
          · exact le_of_lt (hprelt w h)
          · rw [List.mem_singleton] at h
            omega
        have c2 : ∀ j : Nat, j < st.2.1 + 1 →
            isCompleted L (toISODate (a - (j : Int))) hab = true := by
          intro j hj
          cases j with
          | zero => simpa using hC
          | succ i =>
            have harg : a - ((i + 1 : Nat) : Int) = p - (i : Int) := by omega
            rw [harg]
            exact h7 i (by omega)
        have c3 : isCompleted L (toISODate (a - ((st.2.1 + 1 : Nat) : Int))) hab
            = false := by
          have harg : a - ((st.2.1 + 1 : Nat) : Int) = p - ((st.2.1 : Nat) : Int) := by
            omega
          rw [harg]
          exact h8
        have c4 : ∃ s : Int, ∀ j : Nat, j < max st.1 (st.2.1 + 1) →
            isCompleted L (toISODate (s + (j : Int))) hab = true := by
        
          rcases Nat.le_total (st.2.1 + 1) st.1 with hm | hm
          · rw [Nat.max_eq_left hm]
            exact hex
          · rw [Nat.max_eq_right hm]
            refine ⟨a - (st.2.1 : Int), ?_⟩
            intro j hj
            have harg : a - (st.2.1 : Int) + (j : Int)
                = a - ((st.2.1 - j : Nat) : Int) := by omega
            rw [harg]
            exact c2 (st.2.1 - j) (by omega)
        have c5 : ∀ (k : Nat) (s : Int), 1 ≤ k →
            (∀ j : Nat, j < k → isCompleted L (toISODate (s + (j : Int))) hab = true) →
            (s + (k : Int) - 1) ∈ pre ++ [a] → k ≤ max st.1 (st.2.1 + 1) := by
          intro k s hk hrun hend
          rcases List.mem_append.mp hend with h | h
          · exact le_trans (hub k s hk hrun h) (le_max_left _ _)
          · rw [List.mem_singleton] at h
            refine le_trans ?_ (le_max_right _ _)
            by_contra hk2
            have hPe := hrun (k - (st.2.1 + 2)) (by omega)
            have harg : s + ((k - (st.2.1 + 2) : Nat) : Int)
                = a - ((st.2.1 + 1 : Nat) : Int) := by omega
            rw [harg] at hPe
            rw [hPe] at c3
            exact absurd c3 (by decide)
        exact ⟨Or.inr ⟨a, rfl, List.mem_append_right _ (by simp), hC, c1,
          by show 1 ≤ st.2.1 + 1; omega,
          by show st.2.1 + 1 ≤ max st.1 (st.2.1 + 1); exact le_max_right _ _,
          c2, c3⟩, c4, c5⟩
      · -- completed, but not consecutive: a new run of length 1 starts
        have hstep : bestStepZ hab L st a = (max st.1 1, 1, some a) := by
          simp only [bestStepZ, h1]
          rw [if_pos hC, if_neg hz]
        rw [hstep]
        have hPa1 : isCompleted L (toISODate (a - 1)) hab = false := by
          rw [Bool.eq_false_iff]
          intro hP
          rcases hmem_resolve (a - 1) hP (by omega) with h | h
          · omega
          · have hle := h4 (a - 1) h hP
            omega
        have c1 : ∀ w ∈ pre ++ [a], isCompleted L (toISODate w) hab = true → w ≤ a := by
          intro w hw hPw
          rcases List.mem_append.mp hw with h | h
          · exact le_of_lt (hprelt w h)
          · rw [List.mem_singleton] at h
            omega
        have c2 : ∀ j : Nat, j < 1 → isCompleted L (toISODate (a - (j : Int))) hab = true := by
          intro j hj
          have hj0 : j = 0 := by omega
          subst hj0
          simpa using hC
        have c3 : isCompleted L (toISODate (a - ((1 : Nat) : Int))) hab = false := by
          have harg : a - ((1 : Nat) : Int) = a - 1 := by omega
          rw [harg]
          exact hPa1
        have c4 : ∃ s : Int, ∀ j : Nat, j < max st.1 1 →
            isCompleted L (toISODate (s + (j : Int))) hab = true := by
          rcases Nat.le_total 1 st.1 with hm | hm
          · rw [Nat.max_eq_left hm]
            exact hex
          · rw [Nat.max_eq_right hm]
            refine ⟨a, ?_⟩
            intro j hj
            have hj0 : j = 0 := by omega
            subst hj0
            simpa using hC
        have c5 : ∀ (k : Nat) (s : Int), 1 ≤ k →
            (∀ j : Nat, j < k → isCompleted L (toISODate (s + (j : Int))) hab = true) →
            (s + (k : Int) - 1) ∈ pre ++ [a] → k ≤ max st.1 1 := by
          intro k s hk hrun hend
          rcases List.mem_append.mp hend with h | h
          · exact le_trans (hub k s hk hrun h) (le_max_left _ _)
          · rw [List.mem_singleton] at h
            refine le_trans ?_ (le_max_right _ _)
            by_contra hk2
            have hPe := hrun (k - 2) (by omega)
            have harg : s + ((k - 2 : Nat) : Int) = a - 1 := by omega
            rw [harg] at hPe
            rw [hPe] at hPa1
            exact absurd hPa1 (by decide)
        exact ⟨Or.inr ⟨a, rfl, List.mem_append_right _ (by simp), hC, c1,
          le_refl _, by show 1 ≤ max st.1 1; omega, c2, c3⟩, c4, c5⟩
  · -- `a` is not completed: the state is unchanged
    have hC2 : isCompleted L (toISODate a) hab = false := by
      rw [Bool.eq_false_iff]
      exact hC
    have hstep : bestStepZ hab L st a = st := by
      simp only [bestStepZ]
      rw [if_neg hC]
    rw [hstep]
    refine ⟨?_, hex, ?_⟩
    · rcases hmain with ⟨h1, h2, h3, h4⟩ | ⟨p, h1, h2, h3, h4, h5, h6, h7, h8⟩
      · left
        refine ⟨h1, h2, h3, ?_⟩
        intro w hw
        rcases List.mem_append.mp hw with h | h
        · exact h4 w h
        · rw [List.mem_singleton] at h
          rw [h]
          exact hC2
      · right
        refine ⟨p, h1, List.mem_append_left _ h2, h3, ?_, h5, h6, h7, h8⟩
        intro w hw hPw
        rcases List.mem_append.mp hw with h | h
        · exact h4 w h hPw
        · rw [List.mem_singleton] at h
          rw [h] at hPw
          rw [hPw] at hC2
          exact absurd hC2 (by decide)
    · intro k s hk hrun hend
      rcases List.mem_append.mp hend with h | h
      · exact hub k s hk hrun h
      · rw [List.mem_singleton] at h
        have hPe := hrun (k - 1) (by omega)
        have harg : s + ((k - 1 : Nat) : Int) = a := by omega
        rw [harg] at hPe
        rw [hPe] at hC2
        exact absurd hC2 (by decide)

/-- Folding the scan over any suffix carries the invariant to the whole list. -/
theorem bestInv_fold (hab : HabitId) (L : Log) (ds : List Int)
    (hsorted : ds.Pairwise (fun x y => x < y))
    (hPd : ∀ w : Int, isCompleted L (toISODate w) hab = true → w ∈ ds) :
    ∀ (suf pre : List Int) (st : Nat × Nat × Option Int),
      ds = pre ++ suf → BestInv hab L pre st →
      BestInv hab L ds (suf.foldl (bestStepZ hab L) st) := by
  intro suf
  induction suf with
  | nil =>
    intro pre st hds hinv
    rw [List.foldl_nil, hds, List.append_nil]
    exact hinv
  | cons a t ih =>
    intro pre st hds hinv
    rw [List.foldl_cons]
    refine ih (pre ++ [a]) (bestStepZ hab L st a) (by rw [hds]; simp) ?_
    exact bestInv_step hab L ds pre t a hds hsorted hPd st hinv

/-- The integer scan computes the greatest consecutive-run length. -/
theorem bestFold_greatest (hab : HabitId) (L : Log) (ds : List Int)
    (hsorted : ds.Pairwise (fun x y => x < y))
    (hPd : ∀ w : Int, isCompleted L (toISODate w) hab = true → w ∈ ds) :
    IsGreatest {k : Nat | ∃ s : Int,
        ∀ j : Nat, j < k → isCompleted L (toISODate (s + (j : Int))) hab = true}
      ((ds.foldl (bestStepZ hab L) (0, 0, none)).1) := by
  have hinv := bestInv_fold hab L ds hsorted hPd ds [] (0, 0, none)
    (by simp) (bestInv_base hab L)
  obtain ⟨hmain, hex, hub⟩ := hinv
  constructor
  · exact hex
  · intro k hkmem
    rcases Nat.eq_zero_or_pos k with hk0 | hk1
    · subst hk0
      exact Nat.zero_le _
    · obtain ⟨s, hrun⟩ := hkmem
      have hPend := hrun (k - 1) (by omega)
      have hend : (s + (k : Int) - 1) ∈ ds := by
        have hm := hPd _ hPend
        have harg : s + ((k - 1 : Nat) : Int) = s + (k : Int) - 1 := by omega
        rw [harg] at hm
        exact hm
      exact hub k s (by omega) hrun hend

/-- Claim C8: `computeBestStreak` returns the greatest length of a run of
calendar-consecutive completed days, and 0 on the empty log.  The log's keys
are assumed well-formed: distinct date keys of four-digit-year days (the
`YYYY-MM-DD` shape the app itself writes), so that JS's lexicographic
default sort agrees with chronological order. -/
theorem claim_C8_computeBestStreak (hab : HabitId) (L : Log)
    (hkeys : ∀ p ∈ L, ∃ z : Int, -354285 ≤ z ∧ z ≤ 2932896 ∧ p.1 = toISODate z)
    (hnd : (L.map Prod.fst).Nodup) :
    computeBestStreak hab [] = 0 ∧
      IsGreatest {k : Nat | ∃ s : Int,
          ∀ j : Nat, j < k → isCompleted L (toISODate (s + (j : Int))) hab = true}
        (computeBestStreak hab L) := by
  constructor
  · simp [computeBestStreak]
  · set f : DateKey × Day → Int := fun q => (parseISODate q.1).getD 0 with hf
    set zs := L.map f with hzs
    have hfix : ∀ q ∈ L, toISODate (f q) = q.1 ∧ -354285 ≤ f q ∧ f q ≤ 2932896 := by
      intro q hq
      obtain ⟨z, hz1, hz2, hq1⟩ := hkeys q hq
      have hfq : f q = z := by
        show (parseISODate q.1).getD 0 = z
        rw [hq1, parse_toISODate z (by omega) (by omega)]
        rfl
      rw [hfq]
      exact ⟨hq1.symm, by omega, by omega⟩
    have hkeyseq : L.map Prod.fst = zs.map toISODate := by
      rw [hzs, List.map_map]
      symm
      apply List.map_congr_left
      intro q hq
      show toISODate (f q) = q.1
      exact (hfix q hq).1
    have hzr : ∀ w ∈ zs, -354285 ≤ w ∧ w ≤ 2932896 := by
      intro w hw
      rw [hzs, List.mem_map] at hw
      obtain ⟨q, hq, hweq⟩ := hw
      rw [← hweq]
      exact ⟨(hfix q hq).2.1, (hfix q hq).2.2⟩
    have htransZ : ∀ a b c : Int, decide (a ≤ b) = true → decide (b ≤ c) = true →
        decide (a ≤ c) = true := by
      intro a b c h1 h2
      rw [decide_eq_true_eq] at h1 h2 ⊢
      omega
    have htotalZ : ∀ a b : Int, (decide (a ≤ b) || decide (b ≤ a)) = true := by
      intro a b
      rw [Bool.or_eq_true, decide_eq_true_eq, decide_eq_true_eq]
      exact le_total a b
    have htransS : ∀ a b c : String, decide (a ≤ b) = true → decide (b ≤ c) = true →
        decide (a ≤ c) = true := by
      intro a b c h1 h2
      rw [decide_eq_true_eq] at h1 h2 ⊢
      exact le_trans h1 h2
    have htotalS : ∀ a b : String, (decide (a ≤ b) || decide (b ≤ a)) = true := by
      intro a b
      rw [Bool.or_eq_true, decide_eq_true_eq, decide_eq_true_eq]
      exact le_total a b
    set ds := zs.mergeSort (fun a b => decide (a ≤ b)) with hds
    have hdsr : ∀ w ∈ ds, -354285 ≤ w ∧ w ≤ 2932896 := by
      intro w hw
      rw [hds] at hw
      exact hzr w (List.mem_mergeSort.mp hw)
    have hdsP : ds.Pairwise (fun a b : Int => a ≤ b) := by
      rw [hds]
      exact (List.sorted_mergeSort htransZ htotalZ zs).imp (fun h => of_decide_eq_true h)
    have hdsN : ds.Nodup := by
      have h1 : (zs.map toISODate).Nodup := by
        rw [← hkeyseq]
        exact hnd
      have h2 : zs.Nodup := h1.of_map
      rw [hds]
      exact ((zs.mergeSort_perm _).nodup_iff).mpr h2
    have hdsS : ds.Pairwise (fun x y : Int => x < y) :=
      (hdsP.and hdsN).imp (fun h => lt_of_le_of_ne h.1 h.2)
    have hPd : ∀ w : Int, isCompleted L (toISODate w) hab = true → w ∈ ds := by
      intro w hP
      obtain ⟨v, hv⟩ := isCompleted_mem_keys hP
      obtain ⟨z, hz1, hz2, hq1⟩ := hkeys _ hv
      have hwz : w = z := toISODate_inj_ranged (by omega) (by omega) hq1
      have hfq : f (toISODate w, v) = w := by
        show (parseISODate (toISODate w)).getD 0 = w
        rw [parse_toISODate w (by omega) (by omega)]
        rfl
      rw [hds]
      refine List.mem_mergeSort.mpr ?_
      rw [hzs]
      have hm := List.mem_map_of_mem f hv
      rw [hfq] at hm
      exact hm
    have hsorteq : (L.map Prod.fst).mergeSort (fun a b => decide (a ≤ b))
        = ds.map toISODate := by
      have p1 : List.Perm ((L.map Prod.fst).mergeSort (fun a b => decide (a ≤ b)))
          (L.map Prod.fst) :=
        List.mergeSort_perm _ _
      have p2 : List.Perm (ds.map toISODate) (zs.map toISODate) := by
        rw [hds]
        exact (List.mergeSort_perm zs _).map _
      have pk : List.Perm (L.map Prod.fst) (zs.map toISODate) := by
        rw [hkeyseq]
      have hs1 : List.Sorted (fun a b : DateKey => a ≤ b)
          ((L.map Prod.fst).mergeSort (fun a b => decide (a ≤ b))) :=
        (List.sorted_mergeSort htransS htotalS (L.map Prod.fst)).imp
          (fun h => of_decide_eq_true h)
      have hs2 : List.Sorted (fun a b : DateKey => a ≤ b) (ds.map toISODate) := by
        rw [List.Sorted, List.pairwise_map]
        refine List.Pairwise.imp_of_mem ?_ hdsS
        intro a b ha hb hab
        have hra := hdsr a ha
        have hrb := hdsr b hb
        exact le_of_lt (toISO_lt_of_lt hra.1 hra.2 hrb.1 hrb.2 hab)
      exact List.eq_of_perm_of_sorted ((p1.trans pk).trans p2.symm) hs1 hs2
    have hfold : (ds.map toISODate).foldl (bestStep hab L) (0, 0, none)
        = ((ds.foldl (bestStepZ hab L) (0, 0, none)).1,
           (ds.foldl (bestStepZ hab L) (0, 0, none)).2.1,
           (ds.foldl (bestStepZ hab L) (0, 0, none)).2.2.map toISODate) :=
      foldl_transport hab L ds hdsr (0, 0, none)
        (fun p hp => Option.noConfusion hp)
    have hcbs : computeBestStreak hab L = (ds.foldl (bestStepZ hab L) (0, 0, none)).1 := by
      show (((L.map Prod.fst).mergeSort (fun a b => decide (a ≤ b))).foldl
          (bestStep hab L) (0, 0, none)).1 = _
      rw [hsorteq, hfold]
    rw [hcbs]
    exact bestFold_greatest hab L ds hdsS hPd

/-- Witness for C8 on a one-entry log. -/
theorem claim_C8_witness :
    computeBestStreak "a" [] = 0 ∧
      IsGreatest {k : Nat | ∃ s : Int, ∀ j : Nat, j < k →
          isCompleted [("2024-05-07", ["a"])] (toISODate (s + (j : Int))) "a" = true}
        (computeBestStreak "a" [("2024-05-07", ["a"])]) :=
  claim_C8_computeBestStreak "a" [("2024-05-07", ["a"])]
    (by
      intro p hp
      rw [List.mem_singleton] at hp
      refine ⟨19850, by decide, by decide, ?_⟩
      rw [hp]
      decide)
    (by decide)
